import Mathlib

/-!
# PF2DD2D::cmaes — a shallow embedding of the CMA-ES routine

Source: `src/PF2DD/src/PF2DDCMAES.cpp`, function `PF2DD2D::cmaes` (lines 133-342).

Conventions of the embedding.

* A `double` that only ever takes part in arithmetic (`sigma`, the paths, the
  covariance matrix, the strategy parameters) is a real number.  Rounding,
  overflow and underflow of the machine format are not modelled.
* A `double` whose NaN / infinity status is inspected by the code (the objective
  values `currentobj`, `overallobj`, `lastobj`, `pobj`) is a value of `Dbl`:
  NaN, the two infinities, or a finite number, with the IEEE comparison rules.
* `arma::mat` vectors of `n_elem = n` entries are functions `Fin n → ℝ`; the flag
  `col` records the test `iterate.n_rows > iterate.n_cols` that the code uses to
  choose between its column and its row formulas.
* What the routine obtains from outside the file (the objective composed with
  `decodestdv`, `arma::randn`, `arma::chol`, `arma::eig_sym`, `arma::sort_index`,
  and the unspecified initial contents of the population buffers) is a field of
  `Env`.
* The `cout` statements have no effect on the computed values and are left out.
-/

namespace PF2DD2D

/-! ## Scalars -/

/-- Rounding of `std::round`: nearest integer, halves go away from zero. -/
def stdRound {α : Type} [LinearOrderedField α] [FloorRing α] (x : α) : ℤ :=
  if 0 ≤ x then ⌊x + 1 / 2⌋ else ⌈x - 1 / 2⌉

/-- Conversion of a `double` to `int`: the fractional part is dropped. -/
def toInt {α : Type} [LinearOrderedField α] [FloorRing α] (x : α) : ℤ :=
  if 0 ≤ x then ⌊x⌋ else ⌈x⌉

/-- Line 134: `maxIt`. -/
def maxIt : ℕ := 500

/-- Line 140: `int lambda = (4 + std::round(3 * std::log(iterate.n_elem))) * 11;`
with `n = iterate.n_elem`. -/
noncomputable def lambda (n : ℕ) : ℤ :=
  toInt ((4 + ((stdRound (3 * Real.log (n : ℝ)) : ℤ) : ℝ)) * 11)

/-- The population size as the specification words it:
`round((4 + 3 ln n) * 11)`.  Not taken from the source; used for comparison only. -/
noncomputable def lambdaSpec (n : ℕ) : ℤ :=
  stdRound ((4 + 3 * Real.log (n : ℝ)) * 11)

/-- Line 143: `const size_t mu = std::round(lambda / 2);` where `lambda` is an
`int`, so `lambda / 2` is the truncating integer quotient, which is then
converted to `double`, rounded, and converted to `size_t`. -/
def mu (lam : ℤ) : ℕ :=
  (stdRound (((Int.tdiv lam 2 : ℤ) : ℚ))).toNat

/-- The parent count as the specification words it: `round(lambda / 2)` with the
real quotient.  Not taken from the source; used for comparison only. -/
def muSpec (lam : ℤ) : ℕ :=
  (stdRound ((lam : ℚ) / 2)).toNat

/-- Entry `j` of `arma::linspace(a, b, N)`: `N` evenly spaced points from `a` to
`b`; a single point is `b`, and the last point is `b`. -/
noncomputable def linspace (a b : ℝ) (N j : ℕ) : ℝ :=
  if N ≤ 1 then b
  else if j + 1 = N then b
  else a + (j : ℝ) * ((b - a) / ((N : ℝ) - 1))

/-- Lines 145-146, entry `j` of `w` before normalisation:
`std::log(mu + 0.5) - arma::log(linspace(0, mu - 1, mu) + 1.0)`. -/
noncomputable def wRaw (m j : ℕ) : ℝ :=
  Real.log ((m : ℝ) + 0.5) - Real.log (linspace 0 (((m - 1 : ℕ) : ℝ)) m j + 1.0)

/-- Line 147: `w /= arma::sum(w);`, entry `j`. -/
noncomputable def w (m j : ℕ) : ℝ :=
  wRaw m j / ∑ k ∈ Finset.range m, wRaw m k

/-- Line 150: `muEffective = 1 / arma::accu(arma::pow(w, 2))`. -/
noncomputable def muEffective (m : ℕ) : ℝ :=
  1 / ∑ j ∈ Finset.range m, (w m j) ^ 2

/-- The value of `muEffective` in a run on an iterate of `n` elements. -/
noncomputable def muEff (n : ℕ) : ℝ := muEffective (mu (lambda n))

/-- Line 159: `cs`. -/
noncomputable def cs (n : ℕ) : ℝ := (muEff n + 2) / ((n : ℝ) + muEff n + 5)

/-- Lines 160-163: `ds`. -/
noncomputable def ds (n : ℕ) : ℝ :=
  1 + cs n + 2 * max (Real.sqrt ((muEff n - 1) / ((n : ℝ) + 1)) - 1) 0

/-- Lines 164-166: `enn`. -/
noncomputable def enn (n : ℕ) : ℝ :=
  Real.sqrt (n : ℝ) * (1 - 1 / (4 * (n : ℝ)) + 1 / (21 * (n : ℝ) ^ 2))

/-- Lines 169-170: `cc`. -/
noncomputable def cc (n : ℕ) : ℝ :=
  (4 + muEff n / (n : ℝ)) / (4 + (n : ℝ) + 2 * muEff n / (n : ℝ))

/-- Line 171: `h`. -/
noncomputable def h (n : ℕ) : ℝ := (1.4 + 2 / ((n : ℝ) + 1)) * enn n

/-- Line 173: `c1`. -/
noncomputable def c1 (n : ℕ) : ℝ := 2 / (((n : ℝ) + 1.3) ^ 2 + muEff n)

/-- Line 174: `alphaMu`. -/
def alphaMu : ℝ := 2

/-- Lines 175-178: `cmu`. -/
noncomputable def cmu (n : ℕ) : ℝ :=
  min (1 - c1 n)
    (alphaMu * (muEff n - 2 + 1 / muEff n) / (((n : ℝ) + 2) ^ 2 + alphaMu * muEff n / 2))

/-- Lines 270-271: the value written to `sigma(idx1)`,
`sigma(idx0) * std::pow(std::exp(cs / ds * psNorm / enn - 1), 0.3)`. -/
noncomputable def sigmaUpdate (cs ds enn psNorm sigmaOld : ℝ) : ℝ :=
  sigmaOld * (Real.exp (cs / ds * psNorm / enn - 1)) ^ (0.3 : ℝ)

/-- The step-size update as the specification words it:
`sigma * exp((cs / ds) * (psNorm / enn - 1)) ^ 0.3`.  Not taken from the source;
used for comparison only. -/
noncomputable def sigmaUpdateSpec (cs ds enn psNorm sigmaOld : ℝ) : ℝ :=
  sigmaOld * (Real.exp ((cs / ds) * (psNorm / enn - 1))) ^ (0.3 : ℝ)

/-! ## Objective values -/

/-- A `double` whose class matters to the control flow. -/
inductive Dbl (α : Type) where
  | nan : Dbl α
  | pinf : Dbl α
  | ninf : Dbl α
  | fin (x : α) : Dbl α

namespace Dbl

/-- Test `std::isnan`. -/
def isNaN {α : Type} : Dbl α → Bool
  | nan => true
  | _ => false

/-- Test `std::isinf`. -/
def isInf {α : Type} : Dbl α → Bool
  | pinf => true
  | ninf => true
  | _ => false

/-- Comparison `a < b` of two doubles: false as soon as one side is NaN. -/
def lt {α : Type} [LinearOrderedField α] : Dbl α → Dbl α → Bool
  | nan, _ => false
  | _, nan => false
  | pinf, _ => false
  | ninf, ninf => false
  | ninf, _ => true
  | fin _, pinf => true
  | fin _, ninf => false
  | fin x, fin y => decide (x < y)

/-- Difference `a - b` of two doubles. -/
def sub {α : Type} [LinearOrderedField α] : Dbl α → Dbl α → Dbl α
  | nan, _ => nan
  | _, nan => nan
  | pinf, pinf => nan
  | pinf, _ => pinf
  | ninf, ninf => nan
  | ninf, _ => ninf
  | fin _, pinf => ninf
  | fin _, ninf => pinf
  | fin x, fin y => fin (x - y)

/-- Absolute value `std::abs`. -/
def abs {α : Type} [LinearOrderedField α] : Dbl α → Dbl α
  | nan => nan
  | pinf => pinf
  | ninf => pinf
  | fin x => fin |x|

end Dbl

/-- Line 135: `tolerance`. -/
def tolerance {α : Type} [LinearOrderedField α] : α := 1 / 10 ^ 8

/-- Line 136: `sigmatol`. -/
def sigmatol {α : Type} [LinearOrderedField α] : α := 1 / 10 ^ 6

/-- What the end of a generation decides (lines 323-338). -/
inductive Decision where
  | numericalFailure : Decision
  | converged : Decision
  | running : Decision
  deriving DecidableEq

/-- Lines 323-336: the two `return` tests at the end of a generation, in the
order of the source, on `lastobj`, `overallobj` and `sigma(idx1)`. -/
def terminate {α : Type} [LinearOrderedField α] (lastobj overallobj sigmaNew : Dbl α) :
    Decision :=
  if overallobj.isNaN || overallobj.isInf then Decision.numericalFailure
  else if ((Dbl.abs (Dbl.sub lastobj overallobj)).lt (Dbl.fin tolerance)
            || sigmaNew.lt (Dbl.fin sigmatol))
          && overallobj.lt (Dbl.fin 100) then Decision.converged
  else Decision.running

/-! ## Vectors, matrices and the outside world -/

/-- An `arma::mat` holding a vector of `n` elements (a row or a column). -/
abbrev Vec (n : ℕ) := Fin n → ℝ

/-- An `n × n` slice of the cube `C`. -/
abbrev Mat (n : ℕ) := Matrix (Fin n) (Fin n) ℝ

/-- Value of `arma::norm` on a vector: the Euclidean norm. -/
noncomputable def norm2 {n : ℕ} (v : Vec n) : ℝ := Real.sqrt (∑ k, v k ^ 2)

/-- The `n × n` product of a vector with itself: `v * v.t()` for a column `v`,
`v.t() * v` for a row `v`; entry `(a, b)` is `v a * v b` in both cases. -/
def outer {n : ℕ} (v : Vec n) : Mat n := Matrix.vecMulVec v v

/-- What `cmaes` obtains from outside the file. -/
structure Env (n : ℕ) where
  /-- the objective `(this->*calobj[sparams["ptype"]])(decodestdv(x))` -/
  obj : Vec n → Dbl ℝ
  /-- the draw `arma::randn(n_rows, n_cols)` made in generation `i` for member `j` -/
  randn : ℕ → ℕ → Vec n
  /-- the call `arma::chol(covLower, C, "lower")`: `none` when it returns false -/
  chol : Mat n → Option (Mat n)
  /-- the call `arma::eig_sym(eigval, eigvec, C)` -/
  eigSym : Mat n → (Fin n → ℝ) × Mat n
  /-- the call `sort_index(pobj)`, taken to return an index vector on every input
  (what the library does when `pobj` holds a NaN is not modelled) -/
  sortIndex : (ℕ → Dbl ℝ) → ℕ → ℕ
  /-- the test `iterate.n_rows > iterate.n_cols` -/
  col : Bool
  /-- contents of the buffer `pStep` before it is first written -/
  pStep0 : ℕ → Vec n
  /-- contents of the buffer `pps` before it is first written -/
  pps0 : ℕ → Vec n
  /-- contents of the buffer `pobj` before it is first written -/
  pobj0 : ℕ → Dbl ℝ

/-- The population buffers `pStep`, `pps`, `pobj` (lines 198-200). -/
structure Pop (n : ℕ) where
  pStep : ℕ → Vec n
  pps : ℕ → Vec n
  pobj : ℕ → Dbl ℝ

/-- The variables of `cmaes` that live across generations; the slot `idx0` of
each double-buffered variable. -/
structure State (n : ℕ) where
  /-- the mean `mps.slice(idx0)` -/
  mps : Vec n
  /-- the step size `sigma(idx0)` -/
  sigma : ℝ
  /-- the path `ps.slice(idx0)` -/
  ps : Vec n
  /-- the path `pc.slice(idx0)` -/
  pc : Vec n
  /-- the covariance `C.slice(idx0)` -/
  C : Mat n
  /-- the visitation order `idx` -/
  idx : ℕ → ℕ
  /-- the population buffers -/
  pop : Pop n
  /-- the in/out argument `iterate` -/
  iterate : Vec n
  overallobj : Dbl ℝ
  lastobj : Dbl ℝ

/-- Lines 153-212: the state before the first generation. -/
noncomputable def initState {n : ℕ} (env : Env n) (iterate : Vec n) : State n :=
  { mps := iterate
    sigma := 1.5
    ps := 0
    pc := 0
    C := 1
    idx := fun j => j
    pop := ⟨env.pStep0, env.pps0, env.pobj0⟩
    iterate := iterate
    overallobj := env.obj iterate
    lastobj := Dbl.fin 1e30 }

/-- Lines 222-228: the offset written to `pStep.slice(idx(j))`, `covLower * randn`
for a column and `randn * covLower` for a row. -/
noncomputable def offset {n : ℕ} (env : Env n) (i : ℕ) (covLower : Mat n) (j : ℕ) : Vec n :=
  if env.col then Matrix.mulVec covLower (env.randn i j)
  else Matrix.vecMul (env.randn i j) covLower

/-- Lines 222-231: the body of the sampling loop for member `j`. -/
noncomputable def sampleOne {n : ℕ} (env : Env n) (i : ℕ) (covLower : Mat n)
    (mean : Vec n) (sigma : ℝ) (idx : ℕ → ℕ) (p : Pop n) (j : ℕ) : Pop n :=
  let s : Vec n := offset env i covLower j
  let x : Vec n := mean + sigma • s
  { pStep := Function.update p.pStep (idx j) s
    pps := Function.update p.pps (idx j) x
    pobj := Function.update p.pobj (idx j) (env.obj x) }

/-- Lines 221-232: the sampling loop `for (j = 0; j < lambda; ++j)`. -/
noncomputable def sample {n : ℕ} (env : Env n) (i : ℕ) (covLower : Mat n)
    (mean : Vec n) (sigma : ℝ) (idx : ℕ → ℕ) (p : Pop n) : Pop n :=
  (List.range (lambda n).toNat).foldl (sampleOne env i covLower mean sigma idx) p

/-- Lines 237-238: the weighted step
`w(0) * pStep.slice(idx(0))` plus `w(j) * pStep.slice(idx(j))` for `1 ≤ j < mu`. -/
noncomputable def recombine {n : ℕ} (m : ℕ) (idx : ℕ → ℕ) (pStep : ℕ → Vec n) : Vec n :=
  (List.range' 1 (m - 1)).foldl (fun s j => s + w m j • pStep (idx j))
    (w m 0 • pStep (idx 0))

/-- Lines 259-267: the new path `ps.slice(idx1)`. -/
noncomputable def psUpdate {n : ℕ} (col : Bool) (covLower : Mat n) (psOld step : Vec n) :
    Vec n :=
  if col then
    (1 - cs n) • psOld
      + Real.sqrt (cs n * (2 - cs n) * muEff n) • Matrix.mulVec covLower.transpose step
  else
    (1 - cs n) • psOld
      + Real.sqrt (cs n * (2 - cs n) * muEff n) • Matrix.vecMul step covLower.transpose

/-- Line 274: the test `psNorm / sqrt(1 - std::pow(1 - cs, 2 * i)) < h`. -/
noncomputable def hsig (n i : ℕ) (psNorm : ℝ) : Bool :=
  decide (psNorm / Real.sqrt (1 - (1 - cs n) ^ (2 * i)) < h n)

/-- Lines 275-276 and 286: the new path `pc.slice(idx1)`. -/
noncomputable def pcUpdate {n : ℕ} (hs : Bool) (pcOld step : Vec n) : Vec n :=
  if hs then (1 - cc n) • pcOld + Real.sqrt (cc n * (2 - cc n) * muEff n) • step
  else (1 - cc n) • pcOld

/-- Lines 278-296: `C.slice(idx1)` after the rank-one update (the column and the
row formula give the same matrix, see `outer`). -/
noncomputable def rankOne {n : ℕ} (hs : Bool) (Cold : Mat n) (pcNew : Vec n) : Mat n :=
  if hs then (1 - c1 n - cmu n) • Cold + c1 n • outer pcNew
  else (1 - c1 n - cmu n) • Cold + c1 n • (outer pcNew + (cc n * (2 - cc n)) • Cold)

/-- Lines 299-309: the rank-mu loop `for (j = 0; j < mu; ++j)`. -/
noncomputable def rankMu {n : ℕ} (m : ℕ) (idx : ℕ → ℕ) (pStep : ℕ → Vec n) (C : Mat n) :
    Mat n :=
  (List.range m).foldl (fun A j => A + (cmu n * w m j) • outer (pStep (idx j))) C

/-- Line 312: `find(eigval < 0, 1)`, the first index with a negative eigenvalue. -/
noncomputable def negativeEigval {n : ℕ} (eigval : Fin n → ℝ) : Option (Fin n) :=
  Fin.find (fun k => eigval k < 0)

/-- Lines 317-319: `eigvec.cols(0, k - 1) * diagmat(eigval.subvec(0, k - 1)) *
eigvec.cols(0, k - 1).t()`. -/
noncomputable def rebuild {n : ℕ} (eigval : Fin n → ℝ) (eigvec : Mat n) (k : Fin n) : Mat n :=
  let V : Matrix (Fin n) (Fin k) ℝ := eigvec.submatrix id (Fin.castLE k.isLt.le)
  V * Matrix.diagonal (fun b => eigval (Fin.castLE k.isLt.le b)) * V.transpose

/-- Lines 312-321: the repair of `C.slice(idx1)` from its eigen-decomposition. -/
noncomputable def repair {n : ℕ} (C : Mat n) (eigval : Fin n → ℝ) (eigvec : Mat n) : Mat n :=
  match negativeEigval eigval with
  | none => C
  | some k => if (k : ℕ) = 0 then 0 else rebuild eigval eigvec k

/-- The repair as the specification words it: the sum of `eigval k * v_k * v_kᵀ`
over the indices `k` with `eigval k ≥ 0`, `v_k` being column `k` of `eigvec`.
Not taken from the source; used for comparison only. -/
noncomputable def repairSpec {n : ℕ} (eigval : Fin n → ℝ) (eigvec : Mat n) : Mat n :=
  ∑ k ∈ Finset.univ.filter (fun k => 0 ≤ eigval k),
    eigval k • outer (fun a => eigvec a k)

/-- Lines 215-321: one generation, from the state of slot `idx0` and the
Cholesky factor `covLower` to the state of slot `idx1`; `lastobj` is left as it
is (line 338 is part of the loop below). -/
noncomputable def generation {n : ℕ} (env : Env n) (i : ℕ) (covLower : Mat n)
    (s : State n) : State n :=
  let m := mu (lambda n)
  let pop := sample env i covLower s.mps s.sigma s.idx s.pop
  let idx := env.sortIndex pop.pobj
  let step := recombine m idx pop.pStep
  let mean : Vec n := s.mps + s.sigma • step
  let currentobj := env.obj mean
  let better := currentobj.lt s.overallobj
  let psNew := psUpdate env.col covLower s.ps step
  let psNorm := norm2 psNew
  let hs := hsig n i psNorm
  let pcNew := pcUpdate hs s.pc step
  let Cnew := rankMu m idx pop.pStep (rankOne hs s.C pcNew)
  let e := env.eigSym Cnew
  { mps := mean
    sigma := sigmaUpdate (cs n) (ds n) (enn n) psNorm s.sigma
    ps := psNew
    pc := pcNew
    C := repair Cnew e.1 e.2
    idx := idx
    pop := pop
    iterate := if better then mean else s.iterate
    overallobj := if better then currentobj else s.overallobj
    lastobj := s.lastobj }

/-- How a run ends. -/
inductive Exit where
  /-- line 327: `overallobj` is NaN or infinite -/
  | numericalFailure : Exit
  /-- line 335: minimised within tolerance -/
  | converged : Exit
  /-- line 219: `arma::chol` failed, `break`, then line 341 -/
  | cholFailed : Exit
  /-- the loop condition `i < maxIt` failed, then line 341 -/
  | budget : Exit
  deriving DecidableEq

/-- The outcome of a run: the returned `double`, the final content of the
in/out argument `iterate`, how the run ended and the value of the loop
counter `i` at that moment. -/
structure Result (n : ℕ) where
  exit : Exit
  value : Dbl ℝ
  iterate : Vec n
  gen : ℕ

/-- Line 338: `lastobj = overallobj;` at the end of a generation that did not
return. -/
def commit {n : ℕ} (t : State n) : State n := { t with lastobj := t.overallobj }

/-- Lines 214-341: the loop, entered with counter `i` and `fuel` iterations left
before the condition `i < maxIt` fails. -/
noncomputable def cmaesLoop {n : ℕ} (env : Env n) : ℕ → ℕ → State n → Result n
  | 0, i, s => ⟨Exit.budget, s.overallobj, s.iterate, i⟩
  | fuel + 1, i, s =>
    match env.chol s.C with
    | none => ⟨Exit.cholFailed, s.overallobj, s.iterate, i⟩
    | some covLower =>
      let t := generation env i covLower s
      match terminate t.lastobj t.overallobj (Dbl.fin t.sigma) with
      | Decision.numericalFailure => ⟨Exit.numericalFailure, t.overallobj, t.iterate, i⟩
      | Decision.converged => ⟨Exit.converged, t.overallobj, t.iterate, i⟩
      | Decision.running => cmaesLoop env fuel (i + 1) (commit t)

/-- Lines 133-342: `cmaes(iterate)`; the loop runs for `i = 1, …, maxIt - 1`. -/
noncomputable def cmaes {n : ℕ} (env : Env n) (iterate : Vec n) : Result n :=
  cmaesLoop env (maxIt - 1) 1 (initState env iterate)

/-- Generation `i` without the `return` tests of lines 323-336: `none` when the
Cholesky factorisation fails. -/
noncomputable def genStep {n : ℕ} (env : Env n) (i : ℕ) (s : State n) : Option (State n) :=
  match env.chol s.C with
  | none => none
  | some covLower => some (commit (generation env i covLower s))

/-- The state at the end of generation `k` when no `return` is taken before:
`none` once a Cholesky factorisation has failed. -/
noncomputable def stateAfter {n : ℕ} (env : Env n) (iterate : Vec n) : ℕ → Option (State n)
  | 0 => some (initState env iterate)
  | k + 1 => (stateAfter env iterate k).bind (genStep env (k + 1))

/-- What the claims assume of `arma::eig_sym` on a symmetric matrix: the
eigenvalues come in ascending order, the eigenvectors are orthonormal, and
together they decompose the matrix. -/
def EigSymSpec {n : ℕ} (eigSym : Mat n → (Fin n → ℝ) × Mat n) : Prop :=
  ∀ C : Mat n, C.IsSymm →
    Monotone (eigSym C).1 ∧
    (eigSym C).2.transpose * (eigSym C).2 = 1 ∧
    C = (eigSym C).2 * Matrix.diagonal (eigSym C).1 * (eigSym C).2.transpose

/-- A run on one variable used in the examples: the objective is the constant
`c`, every normal draw equals 1, `chol` and `eig_sym` are the exact
factorisations of a 1 × 1 matrix, and `sort_index` returns the identity order
(all costs being equal, it is a sorting order). -/
noncomputable def constEnv (c : Dbl ℝ) : Env 1 :=
  { obj := fun _ => c
    randn := fun _ _ _ => 1
    chol := fun C => if 0 < C 0 0 then some (fun _ _ => Real.sqrt (C 0 0)) else none
    eigSym := fun C => (fun _ => C 0 0, 1)
    sortIndex := fun _ j => j
    col := false
    pStep0 := fun _ => 0
    pps0 := fun _ => 0
    pobj0 := fun _ => Dbl.fin 0 }

/-! ## Definitions used to state the remaining properties -/

/-- Number of generations whose body (lines 221-321: sampling, evaluation, state
update) is executed by the loop entered with counter `i` and `fuel` iterations
left; a generation that breaks at line 219 is not counted. -/
noncomputable def generationsRun {n : ℕ} (env : Env n) : ℕ → ℕ → State n → ℕ
  | 0, _, _ => 0
  | fuel + 1, i, s =>
    match env.chol s.C with
    | none => 0
    | some covLower =>
      let t := generation env i covLower s
      match terminate t.lastobj t.overallobj (Dbl.fin t.sigma) with
      | Decision.running => generationsRun env fuel (i + 1) (commit t) + 1
      | _ => 1

/-- Number of generations executed by `cmaes(iterate)`. -/
noncomputable def cmaesGenerations {n : ℕ} (env : Env n) (iterate : Vec n) : ℕ :=
  generationsRun env (maxIt - 1) 1 (initState env iterate)

/-- The smaller of two doubles, the first one on a tie. -/
def Dbl.min {α : Type} [LinearOrderedField α] (a b : Dbl α) : Dbl α :=
  if b.lt a then b else a

/-- Order `a ≤ b` on doubles that are not NaN. -/
def Dbl.le {α : Type} [LinearOrderedField α] (a b : Dbl α) : Prop :=
  a.isNaN = false ∧ b.isNaN = false ∧ b.lt a = false

/-- The population of generation `i` (lines 221-232) entered from state `s`. -/
noncomputable def genPop {n : ℕ} (env : Env n) (i : ℕ) (covLower : Mat n) (s : State n) :
    Pop n :=
  sample env i covLower s.mps s.sigma s.idx s.pop

/-- Line 235: the ranking `idx = sort_index(pobj)` of generation `i`. -/
noncomputable def genIdx {n : ℕ} (env : Env n) (i : ℕ) (covLower : Mat n) (s : State n) :
    ℕ → ℕ :=
  env.sortIndex (genPop env i covLower s).pobj

/-- The ranked unscaled offset `pStep.slice(idx(j))` of generation `i`. -/
noncomputable def ranked {n : ℕ} (env : Env n) (i : ℕ) (covLower : Mat n) (s : State n)
    (j : ℕ) : Vec n :=
  (genPop env i covLower s).pStep (genIdx env i covLower s j)

/-- Lines 237-238: the weighted step `step` of generation `i`. -/
noncomputable def weightedStep {n : ℕ} (env : Env n) (i : ℕ) (covLower : Mat n)
    (s : State n) : Vec n :=
  recombine (mu (lambda n)) (genIdx env i covLower s) (genPop env i covLower s).pStep

/-- Line 269: `psNorm` of generation `i`. -/
noncomputable def genPsNorm {n : ℕ} (env : Env n) (i : ℕ) (covLower : Mat n)
    (s : State n) : ℝ :=
  norm2 (psUpdate env.col covLower s.ps (weightedStep env i covLower s))

/-- Lines 273-309: `C.slice(idx1)` of generation `i` before the repair of lines
311-321. -/
noncomputable def preRepair {n : ℕ} (env : Env n) (i : ℕ) (covLower : Mat n)
    (s : State n) : Mat n :=
  rankMu (mu (lambda n)) (genIdx env i covLower s) (genPop env i covLower s).pStep
    (rankOne (hsig n i (genPsNorm env i covLower s)) s.C
      (pcUpdate (hsig n i (genPsNorm env i covLower s)) s.pc (weightedStep env i covLower s)))

/-- The step-size path update as the specification words it, in column
orientation: the inverse of the root is applied to the weighted step.  Not taken
from the source; used for comparison only. -/
noncomputable def psUpdateSpec {n : ℕ} (covLower : Mat n) (psOld step : Vec n) : Vec n :=
  (1 - cs n) • psOld
    + Real.sqrt (cs n * (2 - cs n) * muEff n) • Matrix.mulVec covLower⁻¹ step

/-- An index vector of length `lam` is a permutation of `0, …, lam - 1`. -/
def IsPerm (lam : ℕ) (idx : ℕ → ℕ) : Prop :=
  (∀ j, j < lam → idx j < lam) ∧ (∀ k, k < lam → ∃ j, j < lam ∧ idx j = k)

/-- A run on two variables used to compare the two orientations: `col` selects
the column (`true`) or the row (`false`) formulas; every normal draw is the
vector `(1, 0)`. -/
noncomputable def orientEnv (col : Bool) : Env 2 :=
  { obj := fun _ => Dbl.fin 0
    randn := fun _ _ => ![1, 0]
    chol := fun _ => none
    eigSym := fun C => (fun _ => 0, C)
    sortIndex := fun _ j => j
    col := col
    pStep0 := fun _ => 0
    pps0 := fun _ => 0
    pobj0 := fun _ => Dbl.fin 0 }


/-! ## Population size and parent count -/

theorem log_ten_gt : (23 : ℝ) / 10 < Real.log 10 := by
  rw [Real.lt_log_iff_exp_lt (by norm_num)]
  have e : Real.exp (23 / 10) ^ 10 = Real.exp 1 ^ 23 := by
    rw [← Real.exp_nat_mul, ← Real.exp_nat_mul]; norm_num
  have h1 : Real.exp 1 ^ 23 < (10 : ℝ) ^ 10 :=
    calc Real.exp 1 ^ 23 < (2.7182818286 : ℝ) ^ 23 :=
          pow_lt_pow_left₀ Real.exp_one_lt_d9 (Real.exp_pos _).le (by norm_num)
      _ < (10 : ℝ) ^ 10 := by norm_num
  rw [← e] at h1
  exact lt_of_pow_lt_pow_left₀ 10 (by norm_num) h1

theorem log_ten_lt : Real.log 10 < (37 : ℝ) / 16 := by
  rw [Real.log_lt_iff_lt_exp (by norm_num)]
  have e : Real.exp (37 / 16) ^ 16 = Real.exp 1 ^ 37 := by
    rw [← Real.exp_nat_mul, ← Real.exp_nat_mul]; norm_num
  have h1 : (10 : ℝ) ^ 16 < Real.exp 1 ^ 37 :=
    calc (10 : ℝ) ^ 16 < (2.7182818283 : ℝ) ^ 37 := by norm_num
      _ < Real.exp 1 ^ 37 :=
          pow_lt_pow_left₀ Real.exp_one_gt_d9 (by norm_num) (by norm_num)
  rw [← e] at h1
  exact lt_of_pow_lt_pow_left₀ 16 (Real.exp_pos _).le h1

theorem toInt_intCast (k : ℤ) : toInt ((k : ℤ) : ℝ) = k := by
  unfold toInt
  split <;> simp

theorem stdRound_of_nonneg {x : ℝ} (hx : 0 ≤ x) : stdRound x = ⌊x + 1 / 2⌋ := by
  unfold stdRound
  rw [if_pos hx]

theorem stdRound_intCast (k : ℤ) : stdRound ((k : ℤ) : ℚ) = k := by
  unfold stdRound
  split
  · rw [Int.floor_eq_iff]; constructor <;> norm_num
  · rw [Int.ceil_eq_iff]; constructor <;> norm_num

theorem lambda_eq_mul (n : ℕ) : lambda n = (4 + stdRound (3 * Real.log (n : ℝ))) * 11 := by
  unfold lambda
  have : ((4 + ((stdRound (3 * Real.log (n : ℝ)) : ℤ) : ℝ)) * 11)
      = (((4 + stdRound (3 * Real.log (n : ℝ))) * 11 : ℤ) : ℝ) := by push_cast; ring
  rw [this, toInt_intCast]

theorem stdRound_three_log_ten : stdRound (3 * Real.log ((10 : ℕ) : ℝ)) = 7 := by
  have h1 := log_ten_gt
  have h2 := log_ten_lt
  have e : ((10 : ℕ) : ℝ) = 10 := by norm_num
  rw [e, stdRound_of_nonneg (by linarith), Int.floor_eq_iff]
  constructor <;> norm_num <;> linarith

theorem lambda_ten : lambda 10 = 121 := by
  rw [lambda_eq_mul, stdRound_three_log_ten]; norm_num

theorem lambdaSpec_ten : lambdaSpec 10 = 120 := by
  have h1 := log_ten_gt
  have h2 := log_ten_lt
  have e : ((10 : ℕ) : ℝ) = 10 := by norm_num
  unfold lambdaSpec
  rw [e, stdRound_of_nonneg (by linarith), Int.floor_eq_iff]
  constructor <;> norm_num <;> linarith

theorem mu_eq (lam : ℤ) : mu lam = (Int.tdiv lam 2).toNat := by
  unfold mu
  rw [stdRound_intCast]

/-- C1 (counterexample).  For `n = 10` the code computes `lambda = 121`, while
`round((4 + 3 ln 10) * 11) = 120`. -/
theorem lambda_ten_ne_spec : lambda 10 = 121 ∧ lambdaSpec 10 = 120 ∧ lambda 10 ≠ lambdaSpec 10 := by
  refine ⟨lambda_ten, lambdaSpec_ten, ?_⟩
  rw [lambda_ten, lambdaSpec_ten]; decide

/-- C1 (amended).  For every dimension `n ≥ 1` the population size computed by
`cmaes` is `(4 + round(3 ln n)) * 11`: the logarithm term alone is rounded
(to `⌊3 ln n + 1/2⌋`) before the sum is multiplied by 11, so `lambda` is a
multiple of 11 and at least 44. -/
theorem lambda_rounds_log_then_scales (n : ℕ) (hn : 1 ≤ n) :
    lambda n = (4 + stdRound (3 * Real.log (n : ℝ))) * 11
      ∧ stdRound (3 * Real.log (n : ℝ)) = ⌊3 * Real.log (n : ℝ) + 1 / 2⌋
      ∧ 44 ≤ lambda n := by
  have hlog : 0 ≤ 3 * Real.log (n : ℝ) := by
    have : (1 : ℝ) ≤ n := by exact_mod_cast hn
    have := Real.log_nonneg this
    linarith
  refine ⟨lambda_eq_mul n, stdRound_of_nonneg hlog, ?_⟩
  rw [lambda_eq_mul, stdRound_of_nonneg hlog]
  have : 0 ≤ ⌊3 * Real.log (n : ℝ) + 1 / 2⌋ := Int.floor_nonneg.mpr (by linarith)
  linarith

/-- C1 (witness): the amended statement at `n = 10`, where `lambda = 121`. -/
theorem lambda_rounds_log_then_scales_witness :
    1 ≤ 10
      ∧ (lambda 10 = (4 + stdRound (3 * Real.log ((10 : ℕ) : ℝ))) * 11
        ∧ stdRound (3 * Real.log ((10 : ℕ) : ℝ)) = ⌊3 * Real.log ((10 : ℕ) : ℝ) + 1 / 2⌋
        ∧ 44 ≤ lambda 10)
      ∧ lambda 10 = 121 :=
  ⟨by norm_num, lambda_rounds_log_then_scales 10 (by norm_num), lambda_ten⟩

/-- C2 (code at the failing input).  For `n = 10` the code has `lambda = 121`
and `mu = 60`, the truncated quotient, while `round(121 / 2) = 61`. -/
theorem mu_truncates_at_ten : mu (lambda 10) = 60 ∧ muSpec (lambda 10) = 61 := by
  rw [lambda_ten, mu_eq]
  refine ⟨by decide, ?_⟩
  have e : ((121 : ℤ) : ℚ) / 2 + 1 / 2 = ((61 : ℤ) : ℚ) := by norm_num
  unfold muSpec stdRound
  rw [if_pos (by norm_num), e, Int.floor_intCast]
  decide

/-! ## Recombination weights -/

theorem linspace_index (m j : ℕ) (hj : j < m) :
    linspace 0 (((m - 1 : ℕ) : ℝ)) m j = (j : ℝ) := by
  unfold linspace
  split_ifs with h1 h2
  · have : j = 0 := by omega
    have hm : m - 1 = 0 := by omega
    simp [this, hm]
  · have : m - 1 = j := by omega
    rw [this]
  · have hm : (2 : ℝ) ≤ (m : ℝ) := by exact_mod_cast (by omega : 2 ≤ m)
    have hc : (((m - 1 : ℕ) : ℝ)) = (m : ℝ) - 1 := by
      rw [Nat.cast_sub (by omega)]; simp
    rw [hc]
    have hne : (m : ℝ) - 1 ≠ 0 := by linarith
    field_simp

theorem wRaw_eq (m j : ℕ) (hj : j < m) :
    wRaw m j = Real.log ((m : ℝ) + 0.5) - Real.log ((j : ℝ) + 1) := by
  unfold wRaw
  rw [linspace_index m j hj]
  norm_num

theorem wRaw_pos (m j : ℕ) (hj : j < m) : 0 < wRaw m j := by
  rw [wRaw_eq m j hj, sub_pos]
  have h0 : (0 : ℝ) < (j : ℝ) + 1 := by positivity
  have h1 : (j : ℝ) + 1 ≤ (m : ℝ) := by exact_mod_cast hj
  exact Real.log_lt_log h0 (by norm_num; linarith)

theorem sum_wRaw_pos (m : ℕ) (hm : 1 ≤ m) : 0 < ∑ k ∈ Finset.range m, wRaw m k :=
  Finset.sum_pos (fun k hk => wRaw_pos m k (Finset.mem_range.mp hk))
    ⟨0, Finset.mem_range.mpr hm⟩

theorem w_pos (m j : ℕ) (hj : j < m) : 0 < w m j :=
  div_pos (wRaw_pos m j hj) (sum_wRaw_pos m (by omega))

theorem sum_w (m : ℕ) (hm : 1 ≤ m) : ∑ j ∈ Finset.range m, w m j = 1 := by
  unfold w
  rw [← Finset.sum_div]
  exact div_self (sum_wRaw_pos m hm).ne'

theorem one_le_mu (lam : ℤ) (hl : 2 ≤ lam) : 1 ≤ mu lam := by
  rw [mu_eq]
  have : 1 ≤ Int.tdiv lam 2 := by
    rw [Int.tdiv_eq_ediv (by omega) (by norm_num)]
    omega
  omega

/-- C3.  For every `lambda ≥ 2` the parent count `mu` is at least 1, every entry
of the normalised weight vector `w` (of length `mu`) is non-negative, and the
entries sum to exactly 1 over the reals. -/
theorem weights_nonneg_sum_one (lam : ℤ) (hl : 2 ≤ lam) :
    1 ≤ mu lam
      ∧ (∀ j, j < mu lam → 0 ≤ w (mu lam) j)
      ∧ ∑ j ∈ Finset.range (mu lam), w (mu lam) j = 1 :=
  ⟨one_le_mu lam hl, fun j hj => (w_pos (mu lam) j hj).le, sum_w (mu lam) (one_le_mu lam hl)⟩

/-- C3 (witness): the statement at `lambda = 2`, where `mu = 1`. -/
theorem weights_nonneg_sum_one_witness :
    (2 : ℤ) ≤ 2 ∧ 1 ≤ mu 2
      ∧ (∀ j, j < mu 2 → 0 ≤ w (mu 2) j)
      ∧ ∑ j ∈ Finset.range (mu 2), w (mu 2) j = 1 :=
  ⟨le_refl 2, weights_nonneg_sum_one 2 (le_refl 2)⟩

/-! ## Strategy parameters -/

theorem lambda_ge (n : ℕ) : 44 ≤ lambda n := by
  have hlog : 0 ≤ 3 * Real.log (n : ℝ) := by
    have := Real.log_natCast_nonneg n
    linarith
  rw [lambda_eq_mul, stdRound_of_nonneg hlog]
  have : 0 ≤ ⌊3 * Real.log (n : ℝ) + 1 / 2⌋ := Int.floor_nonneg.mpr (by linarith)
  linarith

theorem one_le_mu_lambda (n : ℕ) : 1 ≤ mu (lambda n) :=
  one_le_mu _ (le_trans (by norm_num) (lambda_ge n))

theorem muEffective_pos (m : ℕ) (hm : 1 ≤ m) : 0 < muEffective m := by
  unfold muEffective
  apply one_div_pos.mpr
  exact Finset.sum_pos (fun j hj => pow_pos (w_pos m j (Finset.mem_range.mp hj)) 2)
    ⟨0, Finset.mem_range.mpr hm⟩

theorem muEff_pos (n : ℕ) : 0 < muEff n := muEffective_pos _ (one_le_mu_lambda n)

theorem cs_pos (n : ℕ) : 0 < cs n := by
  have hm := muEff_pos n
  have hn : (0 : ℝ) ≤ n := Nat.cast_nonneg n
  unfold cs
  apply div_pos <;> linarith

theorem cs_lt_one (n : ℕ) : cs n < 1 := by
  have hm := muEff_pos n
  have hn : (0 : ℝ) ≤ n := Nat.cast_nonneg n
  unfold cs
  rw [div_lt_one (by linarith)]
  linarith

theorem ds_ge (n : ℕ) : 1 + cs n ≤ ds n := by
  unfold ds
  have := le_max_right (Real.sqrt ((muEff n - 1) / ((n : ℝ) + 1)) - 1) 0
  linarith

theorem cs_div_ds_lt_one (n : ℕ) : cs n / ds n < 1 := by
  have h1 := ds_ge n
  have h2 := cs_pos n
  rw [div_lt_one (by linarith)]
  linarith

theorem cs_div_ds_pos (n : ℕ) : 0 < cs n / ds n := by
  have h1 := ds_ge n
  have h2 := cs_pos n
  exact div_pos h2 (by linarith)

theorem enn_one : enn 1 = 67 / 84 := by
  unfold enn
  norm_num

/-! ## Step size -/

theorem sigmaUpdate_pos (a b e p s : ℝ) (hs : 0 < s) : 0 < sigmaUpdate a b e p s := by
  unfold sigmaUpdate
  exact mul_pos hs (Real.rpow_pos_of_pos (Real.exp_pos _) _)

/-- The code subtracts 1 after the multiplication by `cs / ds`; as `cs / ds < 1`
this makes every update strictly smaller than the update of the specification. -/
theorem sigmaUpdate_lt_spec (a b e p s : ℝ) (hab : a / b < 1) (hs : 0 < s) :
    sigmaUpdate a b e p s < sigmaUpdateSpec a b e p s := by
  unfold sigmaUpdate sigmaUpdateSpec
  apply mul_lt_mul_of_pos_left _ hs
  apply Real.rpow_lt_rpow (Real.exp_pos _).le _ (by norm_num)
  apply Real.exp_lt_exp.mpr
  have : a / b * (p / e - 1) = a / b * p / e - a / b := by ring
  rw [this]
  linarith

theorem generation_sigma {n : ℕ} (env : Env n) (i : ℕ) (L : Mat n) (s : State n) :
    (generation env i L s).sigma
      = sigmaUpdate (cs n) (ds n) (enn n)
          (norm2 (psUpdate env.col L s.ps
            (recombine (mu (lambda n))
              (env.sortIndex (sample env i L s.mps s.sigma s.idx s.pop).pobj)
              (sample env i L s.mps s.sigma s.idx s.pop).pStep))) s.sigma := rfl

/-- A property that holds before the first generation and is kept by every
generation holds at the end of every generation. -/
theorem stateAfter_induction {n : ℕ} (env : Env n) (x0 : Vec n) (P : State n → Prop)
    (h0 : P (initState env x0))
    (hstep : ∀ (i : ℕ) (L : Mat n) (s : State n), P s → env.chol s.C = some L →
      P (commit (generation env i L s))) :
    ∀ (k : ℕ) (s : State n), stateAfter env x0 k = some s → P s := by
  intro k
  induction k with
  | zero =>
    intro s hs
    simp only [stateAfter, Option.some.injEq] at hs
    exact hs ▸ h0
  | succ k ih =>
    intro s hs
    simp only [stateAfter, Option.bind_eq_some] at hs
    obtain ⟨s0, hk, hg⟩ := hs
    unfold genStep at hg
    cases hc : env.chol s0.C with
    | none => rw [hc] at hg; simp at hg
    | some L =>
      rw [hc] at hg
      simp only [Option.some.injEq] at hg
      exact hg ▸ hstep (k + 1) L s0 (ih s0 hk) hc

theorem stateAfter_sigma_pos {n : ℕ} (env : Env n) (x0 : Vec n) :
    ∀ (k : ℕ) (s : State n), stateAfter env x0 k = some s → 0 < s.sigma := by
  apply stateAfter_induction env x0 (fun s => 0 < s.sigma)
  · simp only [initState]
    norm_num
  · intro i L s hs _
    show 0 < (generation env i L s).sigma
    rw [generation_sigma]
    exact sigmaUpdate_pos _ _ _ _ _ hs

/-- C4.  The value written by the step-size update is strictly positive
whenever the old step size is; hence one generation keeps `sigma` positive, and
from `sigma(0) = 1.5` the step size is positive at the end of every generation
of `cmaes`. -/
theorem sigma_positive_invariant :
    (∀ a b e p s : ℝ, 0 < s → 0 < sigmaUpdate a b e p s)
      ∧ (∀ (n : ℕ) (env : Env n) (i : ℕ) (L : Mat n) (s : State n),
          0 < s.sigma → 0 < (generation env i L s).sigma)
      ∧ (∀ (n : ℕ) (env : Env n) (x0 : Vec n), (initState env x0).sigma = 1.5)
      ∧ (∀ (n : ℕ) (env : Env n) (x0 : Vec n) (k : ℕ) (s : State n),
          stateAfter env x0 k = some s → 0 < s.sigma) := by
  refine ⟨sigmaUpdate_pos, ?_, fun _ _ _ => rfl, fun n env x0 => stateAfter_sigma_pos env x0⟩
  intro n env i L s hs
  rw [generation_sigma]
  exact sigmaUpdate_pos _ _ _ _ _ hs

/-- C5 (code at the failing input).  In a run on one variable (`n = 1`), in a
generation whose path norm equals `enn` and whose old step size is 1.5, the
update of the specification leaves the step size at 1.5, whereas the code
writes a strictly smaller value: it computes `exp(cs/ds * psNorm/enn - 1)`. -/
theorem sigma_update_subtracts_one_outside :
    sigmaUpdateSpec (cs 1) (ds 1) (enn 1) (enn 1) 1.5 = 1.5
      ∧ sigmaUpdate (cs 1) (ds 1) (enn 1) (enn 1) 1.5 < 1.5
      ∧ sigmaUpdate (cs 1) (ds 1) (enn 1) (enn 1) 1.5
          = 1.5 * (Real.exp (cs 1 / ds 1 - 1)) ^ (0.3 : ℝ) := by
  have hspec : sigmaUpdateSpec (cs 1) (ds 1) (enn 1) (enn 1) 1.5 = 1.5 := by
    unfold sigmaUpdateSpec
    rw [enn_one]
    norm_num
  refine ⟨hspec, ?_, ?_⟩
  · have := sigmaUpdate_lt_spec (cs 1) (ds 1) (enn 1) (enn 1) 1.5
      (cs_div_ds_lt_one 1) (by norm_num)
    rwa [hspec] at this
  · unfold sigmaUpdate
    rw [enn_one]
    congr 3
    have : cs 1 / ds 1 * (67 / 84) / (67 / 84) = cs 1 / ds 1 := by
      rw [mul_div_assoc, div_self (by norm_num), mul_one]
    rw [this]

/-! ## The end-of-generation decision and the loop -/

theorem terminate_fin {α : Type} [LinearOrderedField α] (l s : Dbl α) (x : α) :
    terminate l (Dbl.fin x) s
      = if ((Dbl.abs (Dbl.sub l (Dbl.fin x))).lt (Dbl.fin (1 / 10 ^ 8)) = true
              ∨ s.lt (Dbl.fin (1 / 10 ^ 6)) = true) ∧ x < 100
        then Decision.converged else Decision.running := by
  unfold terminate
  simp [Dbl.isNaN, Dbl.isInf, Dbl.lt, tolerance, sigmatol]

theorem Dbl.lt_irrefl {α : Type} [LinearOrderedField α] (a : Dbl α) : a.lt a = false := by
  cases a <;> simp [Dbl.lt]

theorem cmaesLoop_zero {n : ℕ} (env : Env n) (i : ℕ) (s : State n) :
    cmaesLoop env 0 i s = ⟨Exit.budget, s.overallobj, s.iterate, i⟩ := rfl

theorem cmaesLoop_chol_none {n : ℕ} (env : Env n) (fuel i : ℕ) (s : State n)
    (hc : env.chol s.C = none) :
    cmaesLoop env (fuel + 1) i s = ⟨Exit.cholFailed, s.overallobj, s.iterate, i⟩ := by
  simp only [cmaesLoop, hc]

theorem cmaesLoop_fail {n : ℕ} (env : Env n) (fuel i : ℕ) (s : State n) (L : Mat n)
    (hc : env.chol s.C = some L)
    (hd : terminate (generation env i L s).lastobj (generation env i L s).overallobj
      (Dbl.fin (generation env i L s).sigma) = Decision.numericalFailure) :
    cmaesLoop env (fuel + 1) i s
      = ⟨Exit.numericalFailure, (generation env i L s).overallobj,
          (generation env i L s).iterate, i⟩ := by
  simp only [cmaesLoop, hc, hd]

theorem cmaesLoop_converged {n : ℕ} (env : Env n) (fuel i : ℕ) (s : State n) (L : Mat n)
    (hc : env.chol s.C = some L)
    (hd : terminate (generation env i L s).lastobj (generation env i L s).overallobj
      (Dbl.fin (generation env i L s).sigma) = Decision.converged) :
    cmaesLoop env (fuel + 1) i s
      = ⟨Exit.converged, (generation env i L s).overallobj,
          (generation env i L s).iterate, i⟩ := by
  simp only [cmaesLoop, hc, hd]

theorem cmaesLoop_running {n : ℕ} (env : Env n) (fuel i : ℕ) (s : State n) (L : Mat n)
    (hc : env.chol s.C = some L)
    (hd : terminate (generation env i L s).lastobj (generation env i L s).overallobj
      (Dbl.fin (generation env i L s).sigma) = Decision.running) :
    cmaesLoop env (fuel + 1) i s
      = cmaesLoop env fuel (i + 1) (commit (generation env i L s)) := by
  simp only [cmaesLoop, hc, hd]

theorem generation_overallobj_const {n : ℕ} (env : Env n) (i : ℕ) (L : Mat n) (s : State n)
    (c : Dbl ℝ) (hobj : ∀ x, env.obj x = c) (hs : s.overallobj = c) :
    (generation env i L s).overallobj = c ∧ (generation env i L s).iterate = s.iterate
      ∧ (generation env i L s).lastobj = s.lastobj := by
  simp only [generation, hobj, hs, Dbl.lt_irrefl]
  simp

theorem terminate_same (c : ℝ) (hc : c < 100) (s : Dbl ℝ) :
    terminate (Dbl.fin c) (Dbl.fin c) s = Decision.converged := by
  rw [terminate_fin, if_pos]
  refine ⟨Or.inl ?_, hc⟩
  simp [Dbl.sub, Dbl.abs, Dbl.lt]

theorem terminate_ge (c : ℝ) (hc : ¬ c < 100) (l s : Dbl ℝ) :
    terminate l (Dbl.fin c) s = Decision.running := by
  rw [terminate_fin, if_neg]
  exact fun hh => hc hh.2

theorem terminate_fin_cases (l s : Dbl ℝ) (c : ℝ) :
    terminate l (Dbl.fin c) s = Decision.converged
      ∨ terminate l (Dbl.fin c) s = Decision.running := by
  rw [terminate_fin]
  split
  · exact Or.inl rfl
  · exact Or.inr rfl

/-- With a constant finite objective below the ceiling, a generation entered
with `lastobj = overallobj` ends the run: by convergence, or before that by a
failed factorisation. -/
theorem cmaesLoop_const_second {n : ℕ} (env : Env n) (c : ℝ) (hc : c < 100)
    (hobj : ∀ x, env.obj x = Dbl.fin c) (fuel i : ℕ) (s : State n)
    (hs : s.overallobj = Dbl.fin c) (hl : s.lastobj = Dbl.fin c) :
    (cmaesLoop env (fuel + 1) i s).value = Dbl.fin c
      ∧ (cmaesLoop env (fuel + 1) i s).gen = i
      ∧ (cmaesLoop env (fuel + 1) i s).iterate = s.iterate
      ∧ ((cmaesLoop env (fuel + 1) i s).exit = Exit.converged
          ∨ ((cmaesLoop env (fuel + 1) i s).exit = Exit.cholFailed
              ∧ env.chol s.C = none)) := by
  cases hch : env.chol s.C with
  | none =>
    rw [cmaesLoop_chol_none env fuel i s hch]
    exact ⟨hs, rfl, rfl, Or.inr ⟨rfl, rfl⟩⟩
  | some L =>
    obtain ⟨h1, h2, h3⟩ := generation_overallobj_const env i L s (Dbl.fin c) hobj hs
    have hd : terminate (generation env i L s).lastobj (generation env i L s).overallobj
        (Dbl.fin (generation env i L s).sigma) = Decision.converged := by
      rw [h1, h3, hl]
      exact terminate_same c hc _
    rw [cmaesLoop_converged env fuel i s L hch hd]
    exact ⟨h1, rfl, h2, Or.inl rfl⟩

theorem cmaes_unfold {n : ℕ} (env : Env n) (x0 : Vec n) :
    cmaes env x0 = cmaesLoop env (498 + 1) 1 (initState env x0) := rfl

theorem initState_overallobj {n : ℕ} (env : Env n) (x0 : Vec n) :
    (initState env x0).overallobj = env.obj x0 := rfl

theorem initState_C {n : ℕ} (env : Env n) (x0 : Vec n) : (initState env x0).C = 1 := rfl

/-- C8 (amended).  If the objective is a finite constant `c < 100` at every
point, `cmaes` returns `c` with `iterate` unchanged no later than generation 2,
never through the non-finite branch and never at the iteration budget: it
returns through the convergence branch unless a Cholesky factorisation failed
in generation 1 or 2. -/
theorem constant_objective_below_ceiling_converges {n : ℕ} (env : Env n) (x0 : Vec n) (c : ℝ)
    (hc : c < 100) (hobj : ∀ x, env.obj x = Dbl.fin c) :
    (cmaes env x0).value = Dbl.fin c
      ∧ (cmaes env x0).iterate = x0
      ∧ (cmaes env x0).gen ≤ 2
      ∧ (cmaes env x0).exit ≠ Exit.budget
      ∧ (cmaes env x0).exit ≠ Exit.numericalFailure
      ∧ ((cmaes env x0).exit ≠ Exit.cholFailed → (cmaes env x0).exit = Exit.converged) := by
  have key : (cmaes env x0).value = Dbl.fin c ∧ (cmaes env x0).iterate = x0
      ∧ (cmaes env x0).gen ≤ 2
      ∧ ((cmaes env x0).exit = Exit.converged ∨ (cmaes env x0).exit = Exit.cholFailed) := by
    have h0 : (initState env x0).overallobj = Dbl.fin c := by rw [initState_overallobj, hobj]
    rw [cmaes_unfold]
    cases hch : env.chol (initState env x0).C with
    | none =>
      rw [cmaesLoop_chol_none env 498 1 _ hch]
      exact ⟨h0, rfl, by show (1 : ℕ) ≤ 2; decide, Or.inr rfl⟩
    | some L =>
      obtain ⟨h1, h2, h3⟩ := generation_overallobj_const env 1 L (initState env x0)
        (Dbl.fin c) hobj h0
      rcases terminate_fin_cases (generation env 1 L (initState env x0)).lastobj
        (Dbl.fin (generation env 1 L (initState env x0)).sigma) c with hd | hd
      · rw [← h1] at hd
        rw [cmaesLoop_converged env 498 1 _ L hch hd]
        exact ⟨h1, h2, by show (1 : ℕ) ≤ 2; decide, Or.inl rfl⟩
      · rw [← h1] at hd
        rw [cmaesLoop_running env 498 1 _ L hch hd]
        obtain ⟨g1, g2, g3, g4⟩ := cmaesLoop_const_second env c hc hobj 497 2
          (commit (generation env 1 L (initState env x0))) h1 h1
        refine ⟨g1, g3.trans h2, by rw [g2], ?_⟩
        rcases g4 with g4 | g4
        · exact Or.inl g4
        · exact Or.inr g4.1
  obtain ⟨k1, k2, k3, k4⟩ := key
  refine ⟨k1, k2, k3, ?_, ?_, ?_⟩
  · rcases k4 with k4 | k4 <;> rw [k4] <;> decide
  · rcases k4 with k4 | k4 <;> rw [k4] <;> decide
  · intro hne
    rcases k4 with k4 | k4
    · exact k4
    · exact absurd k4 hne

/-! ## Covariance update and repair -/

theorem outer_isSymm {n : ℕ} (v : Vec n) : (outer v).IsSymm := by
  ext a b
  simp [outer, Matrix.vecMulVec_apply, mul_comm]

theorem rankOne_isSymm {n : ℕ} (hs : Bool) (C : Mat n) (p : Vec n) (hC : C.IsSymm) :
    (rankOne hs C p).IsSymm := by
  unfold rankOne
  split
  · exact (hC.smul _).add ((outer_isSymm p).smul _)
  · exact (hC.smul _).add (((outer_isSymm p).add (hC.smul _)).smul _)

theorem rankMu_fold_eq {n : ℕ} (m : ℕ) (idx : ℕ → ℕ) (pStep : ℕ → Vec n) (C : Mat n) (k : ℕ) :
    (List.range k).foldl (fun A j => A + (cmu n * w m j) • outer (pStep (idx j))) C
      = C + ∑ j ∈ Finset.range k, (cmu n * w m j) • outer (pStep (idx j)) := by
  induction k with
  | zero => simp
  | succ k ih =>
    rw [List.range_succ, List.foldl_append, ih, Finset.sum_range_succ]
    simp [add_assoc]

theorem rankMu_eq {n : ℕ} (m : ℕ) (idx : ℕ → ℕ) (pStep : ℕ → Vec n) (C : Mat n) :
    rankMu m idx pStep C
      = C + ∑ j ∈ Finset.range m, (cmu n * w m j) • outer (pStep (idx j)) :=
  rankMu_fold_eq m idx pStep C m

theorem sum_isSymm {n : ℕ} (k : ℕ) (f : ℕ → Mat n) (hf : ∀ j, (f j).IsSymm) :
    (∑ j ∈ Finset.range k, f j).IsSymm := by
  induction k with
  | zero => simp
  | succ k ih =>
    rw [Finset.sum_range_succ]
    exact ih.add (hf k)

theorem rankMu_isSymm {n : ℕ} (m : ℕ) (idx : ℕ → ℕ) (pStep : ℕ → Vec n) (C : Mat n)
    (hC : C.IsSymm) : (rankMu m idx pStep C).IsSymm := by
  rw [rankMu_eq]
  exact hC.add (sum_isSymm m _ (fun j => (outer_isSymm _).smul _))

/-- With ascending eigenvalues, a negative eigenvalue is found at index 0 or not
at all. -/
theorem negativeEigval_val_eq_zero {n : ℕ} (eigval : Fin n → ℝ) (hmono : Monotone eigval)
    (k : Fin n) (hk : negativeEigval eigval = some k) : (k : ℕ) = 0 := by
  by_contra hne
  have hpos : 0 < (k : ℕ) := Nat.pos_of_ne_zero hne
  have hlt : (⟨0, lt_of_lt_of_le hpos k.isLt.le⟩ : Fin n) < k := by
    rw [Fin.lt_def]; exact hpos
  have hk0 : eigval k < 0 := Fin.find_spec (fun j => eigval j < 0) hk
  have hmin : ¬ eigval ⟨0, lt_of_lt_of_le hpos k.isLt.le⟩ < 0 := Fin.find_min hk hlt
  have hle : eigval ⟨0, lt_of_lt_of_le hpos k.isLt.le⟩ ≤ eigval k := hmono hlt.le
  exact hmin (lt_of_le_of_lt hle hk0)

/-- With ascending eigenvalues the repair either leaves the matrix as it is (no
eigenvalue is negative) or replaces it by the zero matrix (some eigenvalue is
negative). -/
theorem repair_of_monotone {n : ℕ} (C : Mat n) (eigval : Fin n → ℝ) (eigvec : Mat n)
    (hmono : Monotone eigval) :
    ((∀ k, 0 ≤ eigval k) ∧ repair C eigval eigvec = C)
      ∨ ((∃ k, eigval k < 0) ∧ repair C eigval eigvec = 0) := by
  unfold repair
  cases hk : negativeEigval eigval with
  | none =>
    left
    refine ⟨fun k => ?_, rfl⟩
    have := Fin.find_eq_none_iff.mp hk k
    exact not_lt.mp this
  | some k =>
    right
    refine ⟨⟨k, Fin.find_spec (fun j => eigval j < 0) hk⟩, ?_⟩
    simp only
    rw [if_pos (negativeEigval_val_eq_zero eigval hmono k hk)]

theorem posSemidef_of_decomposition {n : ℕ} (C : Mat n) (eigval : Fin n → ℝ) (eigvec : Mat n)
    (hdec : C = eigvec * Matrix.diagonal eigval * eigvec.transpose)
    (hnn : ∀ k, 0 ≤ eigval k) : C.PosSemidef := by
  have hd : (Matrix.diagonal eigval).PosSemidef := Matrix.PosSemidef.diagonal hnn
  have := hd.mul_mul_conjTranspose_same eigvec
  rw [Matrix.conjTranspose_eq_transpose_of_trivial] at this
  rw [hdec]
  exact this

theorem repair_good {n : ℕ} (C : Mat n) (eigval : Fin n → ℝ) (eigvec : Mat n)
    (hC : C.IsSymm) (hmono : Monotone eigval)
    (hdec : C = eigvec * Matrix.diagonal eigval * eigvec.transpose) :
    (repair C eigval eigvec).IsSymm ∧ (repair C eigval eigvec).PosSemidef := by
  rcases repair_of_monotone C eigval eigvec hmono with ⟨hnn, he⟩ | ⟨_, he⟩
  · rw [he]
    exact ⟨hC, posSemidef_of_decomposition C eigval eigvec hdec hnn⟩
  · rw [he]
    exact ⟨Matrix.isSymm_zero, Matrix.PosSemidef.zero⟩

theorem generation_C {n : ℕ} (env : Env n) (i : ℕ) (L : Mat n) (s : State n) :
    ∃ (hs : Bool) (p : Vec n) (idx : ℕ → ℕ) (pStep : ℕ → Vec n),
      (generation env i L s).C
        = repair (rankMu (mu (lambda n)) idx pStep (rankOne hs s.C p))
            (env.eigSym (rankMu (mu (lambda n)) idx pStep (rankOne hs s.C p))).1
            (env.eigSym (rankMu (mu (lambda n)) idx pStep (rankOne hs s.C p))).2 :=
  ⟨_, _, _, _, rfl⟩

theorem generation_C_good {n : ℕ} (env : Env n) (hE : EigSymSpec env.eigSym)
    (i : ℕ) (L : Mat n) (s : State n) (hC : s.C.IsSymm) :
    (generation env i L s).C.IsSymm ∧ (generation env i L s).C.PosSemidef := by
  obtain ⟨hs, p, idx, pStep, e⟩ := generation_C env i L s
  rw [e]
  have hsym : (rankMu (mu (lambda n)) idx pStep (rankOne hs s.C p)).IsSymm :=
    rankMu_isSymm _ _ _ _ (rankOne_isSymm hs s.C p hC)
  obtain ⟨h1, _, h3⟩ := hE _ hsym
  exact repair_good _ _ _ hsym h1 h3

/-- C6.  Given that `eig_sym` returns, for a symmetric matrix, ascending
eigenvalues with an orthonormal eigenvector matrix that decompose it: a
generation entered with a symmetric `C.slice(idx0)` leaves `C.slice(idx1)`
symmetric and without negative eigenvalue (positive semi-definite); and, `C`
being the identity initially, this holds at the end of every generation. -/
theorem covariance_symmetric_psd_invariant {n : ℕ} (env : Env n)
    (hE : EigSymSpec env.eigSym) :
    (∀ (i : ℕ) (L : Mat n) (s : State n), s.C.IsSymm →
        (generation env i L s).C.IsSymm ∧ (generation env i L s).C.PosSemidef
          ∧ ∀ (hH : (generation env i L s).C.IsHermitian) (j : Fin n), 0 ≤ hH.eigenvalues j)
      ∧ (∀ x0 : Vec n, (initState env x0).C = 1)
      ∧ (∀ (x0 : Vec n) (k : ℕ) (s : State n), stateAfter env x0 k = some s →
          s.C.IsSymm ∧ s.C.PosSemidef
            ∧ ∀ (hH : s.C.IsHermitian) (j : Fin n), 0 ≤ hH.eigenvalues j) := by
  refine ⟨fun i L s hC => ?_, fun _ => rfl, fun x0 k s hk => ?_⟩
  · obtain ⟨h1, h2⟩ := generation_C_good env hE i L s hC
    exact ⟨h1, h2, fun _ j => h2.eigenvalues_nonneg j⟩
  · have := stateAfter_induction env x0 (fun s => s.C.IsSymm ∧ s.C.PosSemidef)
      ⟨Matrix.isSymm_one, Matrix.PosSemidef.one⟩
      (fun i L s hs _ => generation_C_good env hE i L s hs.1) k s hk
    exact ⟨this.1, this.2, fun _ j => this.2.eigenvalues_nonneg j⟩

theorem constEnv_eigSymSpec (c : Dbl ℝ) : EigSymSpec (constEnv c).eigSym := by
  intro C _
  refine ⟨fun a b _ => le_refl _, ?_, ?_⟩
  · simp [constEnv]
  · ext a b
    have ha : a = 0 := Subsingleton.elim _ _
    have hb : b = 0 := Subsingleton.elim _ _
    subst ha hb
    simp [constEnv]

/-- C6 (witness): the run on one variable with the objective constantly 0, whose
`eig_sym` is the exact decomposition of a 1 × 1 matrix. -/
theorem covariance_symmetric_psd_invariant_witness :
    EigSymSpec (constEnv (Dbl.fin 0)).eigSym
      ∧ (∀ (i : ℕ) (L : Mat 1) (s : State 1), s.C.IsSymm →
          (generation (constEnv (Dbl.fin 0)) i L s).C.IsSymm
            ∧ (generation (constEnv (Dbl.fin 0)) i L s).C.PosSemidef
            ∧ ∀ (hH : (generation (constEnv (Dbl.fin 0)) i L s).C.IsHermitian) (j : Fin 1),
                0 ≤ hH.eigenvalues j)
      ∧ (∀ x0 : Vec 1, (initState (constEnv (Dbl.fin 0)) x0).C = 1)
      ∧ (∀ (x0 : Vec 1) (k : ℕ) (s : State 1),
          stateAfter (constEnv (Dbl.fin 0)) x0 k = some s →
          s.C.IsSymm ∧ s.C.PosSemidef
            ∧ ∀ (hH : s.C.IsHermitian) (j : Fin 1), 0 ≤ hH.eigenvalues j) :=
  ⟨constEnv_eigSymSpec _,
    covariance_symmetric_psd_invariant (constEnv (Dbl.fin 0)) (constEnv_eigSymSpec _)⟩

theorem negativeEigval_example : negativeEigval (![-1, 2] : Fin 2 → ℝ) = some 0 := by
  unfold negativeEigval
  rw [Fin.find_eq_some_iff]
  refine ⟨by norm_num, fun j _ => Fin.zero_le j⟩

/-- C7 (code at the failing input).  For `C = diag(-1, 2)`, with the ascending
eigenvalues `(-1, 2)` and the identity as orthonormal eigenvector matrix (a
valid decomposition of `C`), the repair of the code returns the zero matrix,
while the sum over the non-negative eigenpairs is `diag(0, 2)`, which is not
zero although the eigenvalue 2 is non-negative. -/
theorem repair_zeroes_nonneg_eigenpairs :
    Monotone (![-1, 2] : Fin 2 → ℝ)
      ∧ (1 : Mat 2).transpose * (1 : Mat 2) = 1
      ∧ (Matrix.diagonal ![-1, 2] : Mat 2)
          = (1 : Mat 2) * Matrix.diagonal ![-1, 2] * (1 : Mat 2).transpose
      ∧ repair (Matrix.diagonal ![-1, 2]) (![-1, 2] : Fin 2 → ℝ) (1 : Mat 2) = 0
      ∧ repairSpec (![-1, 2] : Fin 2 → ℝ) (1 : Mat 2) = Matrix.diagonal ![0, 2]
      ∧ repairSpec (![-1, 2] : Fin 2 → ℝ) (1 : Mat 2) ≠ 0 := by
  have hspec : repairSpec (![-1, 2] : Fin 2 → ℝ) (1 : Mat 2) = Matrix.diagonal ![0, 2] := by
    unfold repairSpec
    rw [Finset.sum_filter, Fin.sum_univ_two]
    ext a b
    fin_cases a <;> fin_cases b <;> norm_num [outer, Matrix.vecMulVec_apply]
  refine ⟨?_, by simp, by simp, ?_, hspec, ?_⟩
  · intro a b hab
    fin_cases a <;> fin_cases b
    · exact le_refl _
    · norm_num
    · exact absurd hab (by decide)
    · exact le_refl _
  · unfold repair
    rw [negativeEigval_example]
    simp
  · rw [hspec]
    intro hz
    have := congrFun (congrFun hz 1) 1
    simp at this

/-! ## A constant objective at the ceiling: the run on one variable -/

theorem c1_pos (n : ℕ) : 0 < c1 n := by
  have hm := muEff_pos n
  unfold c1
  positivity

theorem c1_lt_one (n : ℕ) (hn : 1 ≤ n) : c1 n < 1 := by
  have hm := muEff_pos n
  have h1 : (1 : ℝ) ≤ n := by exact_mod_cast hn
  unfold c1
  rw [div_lt_one (by positivity)]
  nlinarith

theorem cc_pos (n : ℕ) : 0 < cc n := by
  have hm := muEff_pos n
  have hn : (0 : ℝ) ≤ n := Nat.cast_nonneg n
  have hq : 0 ≤ muEff n / (n : ℝ) := div_nonneg hm.le hn
  have hq2 : 2 * muEff n / (n : ℝ) = 2 * (muEff n / (n : ℝ)) := by ring
  unfold cc
  rw [hq2]
  apply div_pos <;> linarith

theorem cc_lt_two (n : ℕ) : cc n < 2 := by
  have hm := muEff_pos n
  have hn : (0 : ℝ) ≤ n := Nat.cast_nonneg n
  have hq : 0 ≤ muEff n / (n : ℝ) := div_nonneg hm.le hn
  have hq2 : 2 * muEff n / (n : ℝ) = 2 * (muEff n / (n : ℝ)) := by ring
  unfold cc
  rw [hq2, div_lt_iff₀ (by linarith)]
  linarith

theorem cc_mul_pos (n : ℕ) : 0 < cc n * (2 - cc n) :=
  mul_pos (cc_pos n) (by linarith [cc_lt_two n])

theorem mu_le_toNat (lam : ℤ) (hl : 0 ≤ lam) : mu lam ≤ lam.toNat := by
  rw [mu_eq, Int.tdiv_eq_ediv hl (by norm_num)]
  omega

/-- After the sampling loop over members `0, …, N - 1`, when `idx` sends them to
distinct slots, slot `idx j` holds the offset, the candidate and the cost of
member `j`. -/
theorem sample_fold_spec {n : ℕ} (env : Env n) (i : ℕ) (L : Mat n) (mean : Vec n) (sigma : ℝ)
    (idx : ℕ → ℕ) (p : Pop n) (N : ℕ)
    (hinj : ∀ a b, a < N → b < N → idx a = idx b → a = b) (j : ℕ) (hj : j < N) :
    ((List.range N).foldl (sampleOne env i L mean sigma idx) p).pStep (idx j)
        = offset env i L j
      ∧ ((List.range N).foldl (sampleOne env i L mean sigma idx) p).pps (idx j)
        = mean + sigma • offset env i L j
      ∧ ((List.range N).foldl (sampleOne env i L mean sigma idx) p).pobj (idx j)
        = env.obj (mean + sigma • offset env i L j) := by
  induction N with
  | zero => exact absurd hj (Nat.not_lt_zero j)
  | succ N ih =>
    rw [List.range_succ, List.foldl_append]
    simp only [List.foldl_cons, List.foldl_nil, sampleOne]
    by_cases hjN : j = N
    · subst hjN
      simp
    · have hlt : j < N := by omega
      have hne : idx j ≠ idx N := fun he => hjN (hinj j N hj (Nat.lt_succ_self N) he)
      have := ih (fun a b ha hb => hinj a b (by omega) (by omega)) hlt
      simp only [Function.update_noteq hne]
      exact this

theorem constEnv_offset (c : Dbl ℝ) (i : ℕ) (L : Mat 1) (j : ℕ) :
    offset (constEnv c) i L j = fun _ => L 0 0 := by
  funext b
  have hb : b = 0 := Subsingleton.elim _ _
  subst hb
  simp [offset, constEnv, Matrix.vecMul, Matrix.dotProduct]

theorem generation_C_shape {n : ℕ} (env : Env n) (i : ℕ) (L : Mat n) (s : State n) :
    ∃ (hs : Bool) (p : Vec n),
      (generation env i L s).C
        = repair
            (rankMu (mu (lambda n)) (env.sortIndex (sample env i L s.mps s.sigma s.idx s.pop).pobj)
              (sample env i L s.mps s.sigma s.idx s.pop).pStep (rankOne hs s.C p))
            (env.eigSym
              (rankMu (mu (lambda n))
                (env.sortIndex (sample env i L s.mps s.sigma s.idx s.pop).pobj)
                (sample env i L s.mps s.sigma s.idx s.pop).pStep (rankOne hs s.C p))).1
            (env.eigSym
              (rankMu (mu (lambda n))
                (env.sortIndex (sample env i L s.mps s.sigma s.idx s.pop).pobj)
                (sample env i L s.mps s.sigma s.idx s.pop).pStep (rankOne hs s.C p))).2 :=
  ⟨_, _, rfl⟩

theorem rankOne_entry_ge (hs : Bool) (C : Mat 1) (p : Vec 1) (hC : 0 < C 0 0) :
    (1 - c1 1 - cmu 1) * C 0 0 ≤ (rankOne hs C p) 0 0 := by
  have h1 := c1_pos 1
  have h2 := cc_mul_pos 1
  have h3 : 0 ≤ p 0 * p 0 := mul_self_nonneg _
  unfold rankOne
  cases hs
  · simp only [Bool.false_eq_true, if_false, Matrix.add_apply, Matrix.smul_apply, outer,
      Matrix.vecMulVec_apply, smul_eq_mul]
    have : 0 ≤ c1 1 * (p 0 * p 0 + cc 1 * (2 - cc 1) * C 0 0) :=
      mul_nonneg h1.le (add_nonneg h3 (mul_nonneg h2.le hC.le))
    linarith
  · simp only [if_true, Matrix.add_apply, Matrix.smul_apply, outer,
      Matrix.vecMulVec_apply, smul_eq_mul]
    have : 0 ≤ c1 1 * (p 0 * p 0) := mul_nonneg h1.le h3
    linarith

/-- In the run on one variable with all draws equal to 1, a generation entered
with a positive variance and the identity visitation order leaves a positive
variance. -/
theorem constEnv_generation_C_pos (c : Dbl ℝ) (i : ℕ) (s : State 1) (hC : 0 < s.C 0 0)
    (hidx : s.idx = fun j => j) :
    0 < (generation (constEnv c) i (fun _ _ => Real.sqrt (s.C 0 0)) s).C 0 0 := by
  obtain ⟨hs, p, e⟩ := generation_C_shape (constEnv c) i (fun _ _ => Real.sqrt (s.C 0 0)) s
  rw [e]
  have hidx2 : ∀ pobj : ℕ → Dbl ℝ, (constEnv c).sortIndex pobj = fun j => j := fun _ => rfl
  rw [hidx2]
  have hm : mu (lambda 1) ≤ (lambda 1).toNat :=
    mu_le_toNat _ (le_trans (by norm_num) (lambda_ge 1))
  have hstep : ∀ j, j < mu (lambda 1) →
      (sample (constEnv c) i (fun _ _ => Real.sqrt (s.C 0 0)) s.mps s.sigma s.idx s.pop).pStep j
        = fun _ => Real.sqrt (s.C 0 0) := by
    intro j hj
    have := (sample_fold_spec (constEnv c) i (fun _ _ => Real.sqrt (s.C 0 0)) s.mps s.sigma
      s.idx s.pop (lambda 1).toNat (by rw [hidx]; intro a b _ _ hab; exact hab) j
      (lt_of_lt_of_le hj hm)).1
    rw [hidx] at this
    rw [constEnv_offset] at this
    rw [hidx]
    exact this
  have hpos : 0 < (rankMu (mu (lambda 1)) (fun j => j)
      (sample (constEnv c) i (fun _ _ => Real.sqrt (s.C 0 0)) s.mps s.sigma s.idx s.pop).pStep
      (rankOne hs s.C p)) 0 0 := by
    rw [rankMu_eq, Matrix.add_apply, Matrix.sum_apply]
    have hsum : ∑ j ∈ Finset.range (mu (lambda 1)),
        ((cmu 1 * w (mu (lambda 1)) j) • outer
          ((sample (constEnv c) i (fun _ _ => Real.sqrt (s.C 0 0)) s.mps s.sigma s.idx
            s.pop).pStep j)) 0 0 = cmu 1 * s.C 0 0 := by
      have : ∀ j ∈ Finset.range (mu (lambda 1)),
          ((cmu 1 * w (mu (lambda 1)) j) • outer
            ((sample (constEnv c) i (fun _ _ => Real.sqrt (s.C 0 0)) s.mps s.sigma s.idx
              s.pop).pStep j)) 0 0 = (cmu 1 * s.C 0 0) * w (mu (lambda 1)) j := by
        intro j hj
        rw [hstep j (Finset.mem_range.mp hj)]
        simp only [Matrix.smul_apply, outer, Matrix.vecMulVec_apply, smul_eq_mul]
        rw [Real.mul_self_sqrt hC.le]
        ring
      rw [Finset.sum_congr rfl this, ← Finset.mul_sum, sum_w _ (one_le_mu_lambda 1), mul_one]
    rw [hsum]
    have h1 := rankOne_entry_ge hs s.C p hC
    have h2 := c1_lt_one 1 (le_refl 1)
    have : 0 < (1 - c1 1) * s.C 0 0 := mul_pos (by linarith) hC
    linarith
  have hnone : negativeEigval ((constEnv c).eigSym (rankMu (mu (lambda 1)) (fun j => j)
      (sample (constEnv c) i (fun _ _ => Real.sqrt (s.C 0 0)) s.mps s.sigma s.idx s.pop).pStep
      (rankOne hs s.C p))).1 = none := by
    unfold negativeEigval
    rw [Fin.find_eq_none_iff]
    intro k
    simp only [constEnv]
    exact not_lt.mpr hpos.le
  unfold repair
  rw [hnone]
  exact hpos

theorem cmaesLoop_constEnv_budget (c : ℝ) (hc : ¬ c < 100) :
    ∀ (fuel i : ℕ) (s : State 1), s.overallobj = Dbl.fin c → 0 < s.C 0 0 →
      (s.idx = fun j => j) →
      cmaesLoop (constEnv (Dbl.fin c)) fuel i s
        = ⟨Exit.budget, Dbl.fin c, s.iterate, i + fuel⟩ := by
  intro fuel
  induction fuel with
  | zero =>
    intro i s hs _ _
    rw [cmaesLoop_zero, hs]
    rfl
  | succ fuel ih =>
    intro i s hs hC hidx
    have hch : (constEnv (Dbl.fin c)).chol s.C = some (fun _ _ => Real.sqrt (s.C 0 0)) := by
      simp only [constEnv]
      rw [if_pos hC]
    obtain ⟨h1, h2, _⟩ := generation_overallobj_const (constEnv (Dbl.fin c)) i
      (fun _ _ => Real.sqrt (s.C 0 0)) s (Dbl.fin c) (fun _ => rfl) hs
    have hd : terminate
        (generation (constEnv (Dbl.fin c)) i (fun _ _ => Real.sqrt (s.C 0 0)) s).lastobj
        (generation (constEnv (Dbl.fin c)) i (fun _ _ => Real.sqrt (s.C 0 0)) s).overallobj
        (Dbl.fin (generation (constEnv (Dbl.fin c)) i (fun _ _ => Real.sqrt (s.C 0 0)) s).sigma)
        = Decision.running := by
      rw [h1]
      exact terminate_ge c hc _ _
    rw [cmaesLoop_running _ fuel i s _ hch hd,
      ih (i + 1) (commit (generation (constEnv (Dbl.fin c)) i
        (fun _ _ => Real.sqrt (s.C 0 0)) s)) h1
        (constEnv_generation_C_pos (Dbl.fin c) i s hC hidx) rfl]
    have e1 : (commit (generation (constEnv (Dbl.fin c)) i
        (fun _ _ => Real.sqrt (s.C 0 0)) s)).iterate = s.iterate := h2
    rw [e1, Nat.add_assoc, Nat.add_comm 1 fuel]

/-- C8 (counterexample).  On one variable, with the objective constantly 100
(finite) and every Cholesky factorisation succeeding, `cmaes` does not return
through the convergence branch: it leaves the loop at the iteration budget,
with the counter at 500, and returns 100. -/
theorem constant_objective_at_ceiling_exhausts_budget :
    cmaes (constEnv (Dbl.fin 100)) (fun _ => 0) = ⟨Exit.budget, Dbl.fin 100, fun _ => 0, 500⟩
      ∧ (cmaes (constEnv (Dbl.fin 100)) (fun _ => 0)).exit ≠ Exit.converged := by
  have e : cmaes (constEnv (Dbl.fin 100)) (fun _ => 0)
      = ⟨Exit.budget, Dbl.fin 100, fun _ => 0, 500⟩ := by
    rw [cmaes_unfold]
    exact cmaesLoop_constEnv_budget 100 (lt_irrefl _) 499 1 _ rfl
      (by rw [initState_C]; norm_num) rfl
  rw [e]
  exact ⟨rfl, by show Exit.budget ≠ Exit.converged; decide⟩

/-! ## Evaluations on the run on one variable -/

theorem stateAfter_constEnv_one (c : Dbl ℝ) (x0 : Vec 1) :
    stateAfter (constEnv c) x0 1
      = some (commit (generation (constEnv c) 1 (fun _ _ => Real.sqrt ((1 : Mat 1) 0 0))
          (initState (constEnv c) x0))) := by
  simp [stateAfter, genStep, initState_C, constEnv]

/-- C4 (witness): in the run on one variable with the objective constantly 0,
generation 1 completes and ends with a positive step size. -/
theorem sigma_positive_invariant_witness :
    ∃ s : State 1, stateAfter (constEnv (Dbl.fin 0)) (fun _ => 0) 1 = some s ∧ 0 < s.sigma :=
  ⟨_, stateAfter_constEnv_one _ _,
    sigma_positive_invariant.2.2.2 1 (constEnv (Dbl.fin 0)) (fun _ => 0) 1 _
      (stateAfter_constEnv_one _ _)⟩

/-- With a constant objective below the ceiling, the run does not end by a failed
factorisation when the factorisations of generations 1 and 2 succeed. -/
theorem cmaes_const_not_cholFailed {n : ℕ} (env : Env n) (x0 : Vec n) (c : ℝ) (hc : c < 100)
    (hobj : ∀ x, env.obj x = Dbl.fin c) (L : Mat n) (hch : env.chol 1 = some L)
    (hch2 : env.chol (generation env 1 L (initState env x0)).C ≠ none) :
    (cmaes env x0).exit ≠ Exit.cholFailed := by
  have hch1 : env.chol (initState env x0).C = some L := hch
  have h0 : (initState env x0).overallobj = Dbl.fin c := by rw [initState_overallobj, hobj]
  obtain ⟨h1, _, _⟩ := generation_overallobj_const env 1 L (initState env x0)
    (Dbl.fin c) hobj h0
  rw [cmaes_unfold]
  rcases terminate_fin_cases (generation env 1 L (initState env x0)).lastobj
    (Dbl.fin (generation env 1 L (initState env x0)).sigma) c with hd | hd
  · rw [← h1] at hd
    rw [cmaesLoop_converged env 498 1 _ L hch1 hd]
    show Exit.converged ≠ Exit.cholFailed
    decide
  · rw [← h1] at hd
    rw [cmaesLoop_running env 498 1 _ L hch1 hd]
    obtain ⟨_, _, _, g4⟩ := cmaesLoop_const_second env c hc hobj 497 2
      (commit (generation env 1 L (initState env x0))) h1 h1
    rcases g4 with g4 | ⟨_, g5⟩
    · rw [g4]
      decide
    · exact absurd g5 hch2

theorem constEnv_chol (c : Dbl ℝ) (C : Mat 1) (hC : 0 < C 0 0) :
    (constEnv c).chol C = some (fun _ _ => Real.sqrt (C 0 0)) := by
  simp only [constEnv]
  rw [if_pos hC]

theorem constEnv_run_not_cholFailed (c : ℝ) (hc : c < 100) (x0 : Vec 1) :
    (cmaes (constEnv (Dbl.fin c)) x0).exit ≠ Exit.cholFailed := by
  have hpos := constEnv_generation_C_pos (Dbl.fin c) 1 (initState (constEnv (Dbl.fin c)) x0)
    (by rw [initState_C]; norm_num) rfl
  rw [initState_C] at hpos
  apply cmaes_const_not_cholFailed (constEnv (Dbl.fin c)) x0 c hc (fun _ => rfl)
    (fun _ _ => Real.sqrt ((1 : Mat 1) 0 0)) (by simp [constEnv])
  rw [constEnv_chol _ _ hpos]
  exact Option.some_ne_none _

/-- C8 (witness): the run on one variable with the objective constantly 0; no
factorisation fails there, and the run returns 0 through the convergence
branch. -/
theorem constant_objective_below_ceiling_converges_witness :
    (0 : ℝ) < 100
      ∧ (cmaes (constEnv (Dbl.fin 0)) (fun _ => 0)).value = Dbl.fin 0
      ∧ (cmaes (constEnv (Dbl.fin 0)) (fun _ => 0)).gen ≤ 2
      ∧ (cmaes (constEnv (Dbl.fin 0)) (fun _ => 0)).exit = Exit.converged :=
  ⟨by norm_num,
    (constant_objective_below_ceiling_converges (constEnv (Dbl.fin 0)) (fun _ => 0) 0
      (by norm_num) (fun _ => rfl)).1,
    (constant_objective_below_ceiling_converges (constEnv (Dbl.fin 0)) (fun _ => 0) 0
      (by norm_num) (fun _ => rfl)).2.2.1,
    (constant_objective_below_ceiling_converges (constEnv (Dbl.fin 0)) (fun _ => 0) 0
      (by norm_num) (fun _ => rfl)).2.2.2.2.2
      (constEnv_run_not_cholFailed 0 (by norm_num) _)⟩

/-! ## Effective selection mass and learning rates -/

theorem w_le_one (m j : ℕ) (hj : j < m) : w m j ≤ 1 := by
  have hs := sum_w m (by omega)
  rw [← hs]
  exact Finset.single_le_sum (fun k hk => (w_pos m k (Finset.mem_range.mp hk)).le)
    (Finset.mem_range.mpr hj)

theorem sum_w_sq_pos (m : ℕ) (hm : 1 ≤ m) : 0 < ∑ j ∈ Finset.range m, (w m j) ^ 2 :=
  Finset.sum_pos (fun j hj => pow_pos (w_pos m j (Finset.mem_range.mp hj)) 2)
    ⟨0, Finset.mem_range.mpr hm⟩

theorem sum_w_sq_le_one (m : ℕ) (hm : 1 ≤ m) : ∑ j ∈ Finset.range m, (w m j) ^ 2 ≤ 1 := by
  rw [← sum_w m hm]
  apply Finset.sum_le_sum
  intro j hj
  have h0 := (w_pos m j (Finset.mem_range.mp hj)).le
  have h1 := w_le_one m j (Finset.mem_range.mp hj)
  nlinarith

theorem one_le_card_mul_sum_w_sq (m : ℕ) (hm : 1 ≤ m) :
    1 ≤ (m : ℝ) * ∑ j ∈ Finset.range m, (w m j) ^ 2 := by
  have hcs : (∑ j ∈ Finset.range m, w m j) ^ 2
      ≤ ((Finset.range m).card : ℝ) * ∑ j ∈ Finset.range m, (w m j) ^ 2 :=
    sq_sum_le_card_mul_sum_sq
  rw [sum_w m hm, Finset.card_range] at hcs
  simpa using hcs

theorem one_le_muEffective (m : ℕ) (hm : 1 ≤ m) : 1 ≤ muEffective m := by
  unfold muEffective
  rw [le_div_iff₀ (sum_w_sq_pos m hm), one_mul]
  exact sum_w_sq_le_one m hm

theorem muEffective_le (m : ℕ) (hm : 1 ≤ m) : muEffective m ≤ m := by
  unfold muEffective
  rw [div_le_iff₀ (sum_w_sq_pos m hm)]
  exact one_le_card_mul_sum_w_sq m hm

theorem one_le_muEff (n : ℕ) : 1 ≤ muEff n := one_le_muEffective _ (one_le_mu_lambda n)

/-- C17.  For every `mu ≥ 1` the effective selection mass of the normalised
weights satisfies `1 ≤ muEffective ≤ mu`; hence, in a run on `n` variables, the
argument `(muEffective - 1) / (n + 1)` of the square root in `ds` is
non-negative and `ds ≥ 1 + cs`. -/
theorem muEffective_between_one_and_mu (m : ℕ) (hm : 1 ≤ m) :
    1 ≤ muEffective m ∧ muEffective m ≤ (m : ℝ)
      ∧ ∀ n : ℕ, 1 ≤ muEff n ∧ muEff n ≤ (mu (lambda n) : ℝ)
          ∧ 0 ≤ (muEff n - 1) / ((n : ℝ) + 1) ∧ 1 + cs n ≤ ds n := by
  refine ⟨one_le_muEffective m hm, muEffective_le m hm, fun n => ?_⟩
  have h1 := one_le_muEff n
  have hn : (0 : ℝ) ≤ n := Nat.cast_nonneg n
  exact ⟨h1, muEffective_le _ (one_le_mu_lambda n),
    div_nonneg (by linarith) (by linarith), ds_ge n⟩

/-- C17 (witness): the statement at `mu = 1`, where the single weight is 1. -/
theorem muEffective_between_one_and_mu_witness :
    1 ≤ 1 ∧ 1 ≤ muEffective 1 ∧ muEffective 1 ≤ ((1 : ℕ) : ℝ)
      ∧ ∀ n : ℕ, 1 ≤ muEff n ∧ muEff n ≤ (mu (lambda n) : ℝ)
          ∧ 0 ≤ (muEff n - 1) / ((n : ℝ) + 1) ∧ 1 + cs n ≤ ds n :=
  ⟨le_refl 1, muEffective_between_one_and_mu 1 (le_refl 1)⟩

theorem cmu_nonneg (n : ℕ) (hn : 1 ≤ n) : 0 ≤ cmu n := by
  have hm := muEff_pos n
  have h1 := c1_lt_one n hn
  have hnum : 0 ≤ muEff n - 2 + 1 / muEff n := by
    have : muEff n - 2 + 1 / muEff n = (muEff n - 1) ^ 2 / muEff n := by
      field_simp
      ring
    rw [this]
    positivity
  unfold cmu alphaMu
  apply le_min
  · linarith
  · apply div_nonneg
    · exact mul_nonneg (by norm_num) hnum
    · positivity

theorem cmu_le (n : ℕ) : cmu n ≤ 1 - c1 n := by
  unfold cmu
  exact min_le_left _ _

theorem posSemidef_smul {n : ℕ} (A : Mat n) (a : ℝ) (hA : A.PosSemidef) (ha : 0 ≤ a) :
    (a • A).PosSemidef := by
  refine ⟨?_, fun x => ?_⟩
  · have hs : A.IsSymm := by
      have := hA.1
      rwa [Matrix.IsHermitian, Matrix.conjTranspose_eq_transpose_of_trivial] at this
    have : (a • A).IsSymm := hs.smul a
    rwa [Matrix.IsHermitian, Matrix.conjTranspose_eq_transpose_of_trivial]
  · rw [Matrix.smul_mulVec_assoc, Matrix.dotProduct_smul]
    exact mul_nonneg ha (hA.2 x)

theorem outer_posSemidef {n : ℕ} (v : Vec n) : (outer v).PosSemidef := by
  have h := Matrix.posSemidef_self_mul_conjTranspose (Matrix.col (Fin 1) v)
  have e : Matrix.col (Fin 1) v * (Matrix.col (Fin 1) v).conjTranspose = outer v := by
    ext a b
    simp [outer, Matrix.mul_apply, Matrix.vecMulVec_apply]
  rwa [e] at h

theorem sum_posSemidef {n : ℕ} (k : ℕ) (f : ℕ → Mat n)
    (hf : ∀ j, j < k → (f j).PosSemidef) : (∑ j ∈ Finset.range k, f j).PosSemidef := by
  induction k with
  | zero => simpa using Matrix.PosSemidef.zero
  | succ k ih =>
    rw [Finset.sum_range_succ]
    exact (ih (fun j hj => hf j (by omega))).add (hf k (by omega))

theorem rankOne_posSemidef {n : ℕ} (hs : Bool) (C : Mat n) (p : Vec n)
    (hC : C.PosSemidef) : (rankOne hs C p).PosSemidef := by
  have h1 := (c1_pos n).le
  have h2 : 0 ≤ 1 - c1 n - cmu n := by linarith [cmu_le n]
  have h3 := (cc_mul_pos n).le
  unfold rankOne
  split
  · exact (posSemidef_smul _ _ hC h2).add (posSemidef_smul _ _ (outer_posSemidef p) h1)
  · exact (posSemidef_smul _ _ hC h2).add
      (posSemidef_smul _ _ ((outer_posSemidef p).add (posSemidef_smul _ _ hC h3)) h1)

theorem rankMu_posSemidef {n : ℕ} (hn : 1 ≤ n) (idx : ℕ → ℕ) (pStep : ℕ → Vec n) (C : Mat n)
    (hC : C.PosSemidef) : (rankMu (mu (lambda n)) idx pStep C).PosSemidef := by
  rw [rankMu_eq]
  apply hC.add
  apply sum_posSemidef
  intro j hj
  exact posSemidef_smul _ _ (outer_posSemidef _) (mul_nonneg (cmu_nonneg n hn) (w_pos _ j hj).le)

theorem isSymm_of_posSemidef {n : ℕ} (A : Mat n) (hA : A.PosSemidef) : A.IsSymm := by
  have := hA.1
  rwa [Matrix.IsHermitian, Matrix.conjTranspose_eq_transpose_of_trivial] at this

/-- The eigenvalues of a valid decomposition of a positive semi-definite matrix
are non-negative. -/
theorem eigval_nonneg_of_posSemidef {n : ℕ} (C : Mat n) (eigval : Fin n → ℝ) (eigvec : Mat n)
    (hC : C.PosSemidef) (horth : eigvec.transpose * eigvec = 1)
    (hdec : C = eigvec * Matrix.diagonal eigval * eigvec.transpose) (k : Fin n) :
    0 ≤ eigval k := by
  have h := hC.conjTranspose_mul_mul_same eigvec
  rw [Matrix.conjTranspose_eq_transpose_of_trivial] at h
  have e : eigvec.transpose * C * eigvec = Matrix.diagonal eigval := by
    calc eigvec.transpose * C * eigvec
        = eigvec.transpose * (eigvec * Matrix.diagonal eigval * eigvec.transpose) * eigvec := by
          rw [← hdec]
      _ = (eigvec.transpose * eigvec) * Matrix.diagonal eigval
            * (eigvec.transpose * eigvec) := by
          simp only [Matrix.mul_assoc]
      _ = Matrix.diagonal eigval := by rw [horth, Matrix.one_mul, Matrix.mul_one]
  rw [e] at h
  exact Matrix.posSemidef_diagonal_iff.mp h k

theorem repair_of_nonneg {n : ℕ} (C : Mat n) (eigval : Fin n → ℝ) (eigvec : Mat n)
    (hnn : ∀ k, 0 ≤ eigval k) : repair C eigval eigvec = C := by
  have hnone : negativeEigval eigval = none := by
    unfold negativeEigval
    rw [Fin.find_eq_none_iff]
    exact fun k => not_lt.mpr (hnn k)
  unfold repair
  rw [hnone]

theorem generation_C_eq {n : ℕ} (env : Env n) (i : ℕ) (L : Mat n) (s : State n) :
    (generation env i L s).C
      = repair (preRepair env i L s) (env.eigSym (preRepair env i L s)).1
          (env.eigSym (preRepair env i L s)).2 := rfl

theorem preRepair_posSemidef {n : ℕ} (hn : 1 ≤ n) (env : Env n) (i : ℕ) (L : Mat n)
    (s : State n) (hC : s.C.PosSemidef) : (preRepair env i L s).PosSemidef := by
  unfold preRepair
  exact rankMu_posSemidef hn _ _ _ (rankOne_posSemidef _ _ _ hC)

/-- C18.  For every `n ≥ 1` the learning rates satisfy `0 < c1 < 1`, `cmu ≥ 0`,
`1 - c1 - cmu ≥ 0` and `0 < cc * (2 - cc)`; consequently, over the reals, a
positive semi-definite `C.slice(idx0)` gives a symmetric positive semi-definite
matrix before the repair in both branches of the test of line 274, and the
repair (with `eig_sym` as assumed) leaves that matrix unchanged. -/
theorem learning_rates_keep_covariance_psd (n : ℕ) (hn : 1 ≤ n) :
    (0 < c1 n ∧ c1 n < 1 ∧ 0 ≤ cmu n ∧ 0 ≤ 1 - c1 n - cmu n ∧ 0 < cc n * (2 - cc n))
      ∧ (∀ (hs : Bool) (C : Mat n) (p : Vec n) (idx : ℕ → ℕ) (pStep : ℕ → Vec n),
          C.PosSemidef →
          (rankMu (mu (lambda n)) idx pStep (rankOne hs C p)).IsSymm
            ∧ (rankMu (mu (lambda n)) idx pStep (rankOne hs C p)).PosSemidef)
      ∧ (∀ (env : Env n) (i : ℕ) (L : Mat n) (s : State n), s.C.PosSemidef →
          (preRepair env i L s).IsSymm ∧ (preRepair env i L s).PosSemidef
            ∧ (EigSymSpec env.eigSym → (generation env i L s).C = preRepair env i L s)) := by
  refine ⟨⟨c1_pos n, c1_lt_one n hn, cmu_nonneg n hn, by linarith [cmu_le n], cc_mul_pos n⟩,
    ?_, ?_⟩
  · intro hs C p idx pStep hC
    have := rankMu_posSemidef hn idx pStep _ (rankOne_posSemidef hs C p hC)
    exact ⟨isSymm_of_posSemidef _ this, this⟩
  · intro env i L s hC
    have hP := preRepair_posSemidef hn env i L s hC
    have hS := isSymm_of_posSemidef _ hP
    refine ⟨hS, hP, fun hE => ?_⟩
    obtain ⟨_, h2, h3⟩ := hE _ hS
    rw [generation_C_eq]
    exact repair_of_nonneg _ _ _ (eigval_nonneg_of_posSemidef _ _ _ hP h2 h3)

/-- C18 (witness): the statement for a run on one variable. -/
theorem learning_rates_keep_covariance_psd_witness :
    1 ≤ 1
      ∧ (0 < c1 1 ∧ c1 1 < 1 ∧ 0 ≤ cmu 1 ∧ 0 ≤ 1 - c1 1 - cmu 1 ∧ 0 < cc 1 * (2 - cc 1))
      ∧ (generation (constEnv (Dbl.fin 0)) 1 1 (initState (constEnv (Dbl.fin 0)) 0)).C
          = preRepair (constEnv (Dbl.fin 0)) 1 1 (initState (constEnv (Dbl.fin 0)) 0) :=
  ⟨le_refl 1, (learning_rates_keep_covariance_psd 1 (le_refl 1)).1,
    ((learning_rates_keep_covariance_psd 1 (le_refl 1)).2.2 (constEnv (Dbl.fin 0)) 1 1
      (initState (constEnv (Dbl.fin 0)) 0) Matrix.PosSemidef.one).2.2
      (constEnv_eigSymSpec _)⟩

/-- C19.  When the eigenvalues come in ascending order and some eigenvalue is
negative, the first negative index found is 0 and the repair sets the matrix to
zero; a first negative index `k ≥ 1`, which would select the reconstruction of
lines 317-319, cannot occur. -/
theorem repair_with_ascending_eigenvalues_is_zero {n : ℕ} (C : Mat n) (eigval : Fin n → ℝ)
    (eigvec : Mat n) (hmono : Monotone eigval) (hneg : ∃ k, eigval k < 0) :
    (∃ k0 : Fin n, (k0 : ℕ) = 0 ∧ negativeEigval eigval = some k0)
      ∧ repair C eigval eigvec = 0
      ∧ (∀ k : Fin n, negativeEigval eigval = some k → (k : ℕ) = 0) := by
  refine ⟨?_, ?_, fun k hk => negativeEigval_val_eq_zero eigval hmono k hk⟩
  · cases hk : negativeEigval eigval with
    | none =>
      obtain ⟨k, hk0⟩ := hneg
      exact absurd hk0 (Fin.find_eq_none_iff.mp hk k)
    | some k => exact ⟨k, negativeEigval_val_eq_zero eigval hmono k hk, rfl⟩
  · rcases repair_of_monotone C eigval eigvec hmono with ⟨hnn, _⟩ | ⟨_, he⟩
    · obtain ⟨k, hk0⟩ := hneg
      exact absurd hk0 (not_lt.mpr (hnn k))
    · exact he

theorem monotone_example : Monotone (![-1, 2] : Fin 2 → ℝ) := by
  intro a b hab
  fin_cases a <;> fin_cases b
  · exact le_refl _
  · norm_num
  · exact absurd hab (by decide)
  · exact le_refl _

/-- C19 (witness): `C = diag(-1, 2)` with eigenvalues `(-1, 2)`. -/
theorem repair_with_ascending_eigenvalues_is_zero_witness :
    Monotone (![-1, 2] : Fin 2 → ℝ) ∧ (∃ k, (![-1, 2] : Fin 2 → ℝ) k < 0)
      ∧ (∃ k0 : Fin 2, (k0 : ℕ) = 0 ∧ negativeEigval (![-1, 2] : Fin 2 → ℝ) = some k0)
      ∧ repair (Matrix.diagonal ![-1, 2]) (![-1, 2] : Fin 2 → ℝ) (1 : Mat 2) = 0
      ∧ (∀ k : Fin 2, negativeEigval (![-1, 2] : Fin 2 → ℝ) = some k → (k : ℕ) = 0) :=
  ⟨monotone_example, ⟨0, by norm_num⟩,
    repair_with_ascending_eigenvalues_is_zero (Matrix.diagonal ![-1, 2]) ![-1, 2] 1
      monotone_example ⟨0, by norm_num⟩⟩

/-! ## Covariance adaptation before the repair -/

theorem hsig_eq_true_iff (n i : ℕ) (x : ℝ) :
    hsig n i x = true
      ↔ x / Real.sqrt (1 - (1 - cs n) ^ (2 * i)) < (1.4 + 2 / ((n : ℝ) + 1)) * enn n := by
  unfold hsig h
  exact decide_eq_true_iff

theorem generation_ps {n : ℕ} (env : Env n) (i : ℕ) (L : Mat n) (s : State n) :
    (generation env i L s).ps = psUpdate env.col L s.ps (weightedStep env i L s) := rfl

theorem generation_pc {n : ℕ} (env : Env n) (i : ℕ) (L : Mat n) (s : State n) :
    (generation env i L s).pc
      = pcUpdate (hsig n i (norm2 (generation env i L s).ps)) s.pc (weightedStep env i L s) :=
  rfl

theorem preRepair_eq {n : ℕ} (env : Env n) (i : ℕ) (L : Mat n) (s : State n) :
    preRepair env i L s
      = rankOne (hsig n i (norm2 (generation env i L s).ps)) s.C (generation env i L s).pc
          + cmu n • ∑ j ∈ Finset.range (mu (lambda n)),
              w (mu (lambda n)) j • outer (ranked env i L s j) := by
  unfold preRepair
  rw [rankMu_eq, Finset.smul_sum]
  simp only [smul_smul]
  rfl

/-- C16.  In generation `i`, with `step` the weighted step, `y j` the ranked
unscaled offsets and `psNorm` the norm of the new path `ps`: the covariance
written to `C.slice(idx1)` is the repair of a matrix `C_new` such that, when
`psNorm / sqrt(1 - (1 - cs)^(2 i)) < (1.4 + 2 / (n + 1)) * enn`, the new `pc` is
`(1 - cc) pc + sqrt(cc (2 - cc) muEff) step` and
`C_new = (1 - c1 - cmu) C + c1 pc pcᵀ + cmu Σ w_j y_j y_jᵀ`, and otherwise the new
`pc` is `(1 - cc) pc` and
`C_new = (1 - c1 - cmu) C + c1 (pc pcᵀ + cc (2 - cc) C) + cmu Σ w_j y_j y_jᵀ`. -/
theorem covariance_adaptation_before_repair {n : ℕ} (env : Env n) (i : ℕ) (L : Mat n)
    (s : State n) :
    (generation env i L s).C
        = repair (preRepair env i L s) (env.eigSym (preRepair env i L s)).1
            (env.eigSym (preRepair env i L s)).2
      ∧ (norm2 (generation env i L s).ps / Real.sqrt (1 - (1 - cs n) ^ (2 * i))
            < (1.4 + 2 / ((n : ℝ) + 1)) * enn n →
          (generation env i L s).pc
              = (1 - cc n) • s.pc
                + Real.sqrt (cc n * (2 - cc n) * muEff n) • weightedStep env i L s
            ∧ preRepair env i L s
              = (1 - c1 n - cmu n) • s.C + c1 n • outer (generation env i L s).pc
                + cmu n • ∑ j ∈ Finset.range (mu (lambda n)),
                    w (mu (lambda n)) j • outer (ranked env i L s j))
      ∧ (¬ norm2 (generation env i L s).ps / Real.sqrt (1 - (1 - cs n) ^ (2 * i))
            < (1.4 + 2 / ((n : ℝ) + 1)) * enn n →
          (generation env i L s).pc = (1 - cc n) • s.pc
            ∧ preRepair env i L s
              = (1 - c1 n - cmu n) • s.C
                + c1 n • (outer (generation env i L s).pc + (cc n * (2 - cc n)) • s.C)
                + cmu n • ∑ j ∈ Finset.range (mu (lambda n)),
                    w (mu (lambda n)) j • outer (ranked env i L s j)) := by
  refine ⟨rfl, fun hlt => ?_, fun hge => ?_⟩
  · have hh : hsig n i (norm2 (generation env i L s).ps) = true :=
      (hsig_eq_true_iff n i _).mpr hlt
    refine ⟨?_, ?_⟩
    · rw [generation_pc, hh]
      simp [pcUpdate]
    · rw [preRepair_eq, hh]
      simp [rankOne]
  · have hh : hsig n i (norm2 (generation env i L s).ps) = false := by
      rw [← Bool.not_eq_true, hsig_eq_true_iff]
      exact hge
    refine ⟨?_, ?_⟩
    · rw [generation_pc, hh]
      simp [pcUpdate]
    · rw [preRepair_eq, hh]
      simp [rankOne]

/-! ## The new mean as a weighted average of the best candidates -/

theorem recombine_fold_eq {n : ℕ} (m : ℕ) (idx : ℕ → ℕ) (pStep : ℕ → Vec n) (v : Vec n)
    (k : ℕ) :
    (List.range' 1 k).foldl (fun s j => s + w m j • pStep (idx j)) v
      = v + ∑ j ∈ Finset.range k, w m (j + 1) • pStep (idx (j + 1)) := by
  induction k with
  | zero => simp
  | succ k ih =>
    rw [List.range'_1_concat, List.foldl_append, ih, Finset.sum_range_succ]
    simp [add_assoc, add_comm 1 k]

theorem recombine_eq_sum {n : ℕ} (m : ℕ) (hm : 1 ≤ m) (idx : ℕ → ℕ) (pStep : ℕ → Vec n) :
    recombine m idx pStep = ∑ j ∈ Finset.range m, w m j • pStep (idx j) := by
  unfold recombine
  rw [recombine_fold_eq]
  obtain ⟨k, rfl⟩ : ∃ k, m = k + 1 := ⟨m - 1, by omega⟩
  rw [Finset.sum_range_succ' (fun j => w (k + 1) j • pStep (idx j)) k]
  simp [add_comm]

/-- After the sampling loop over members `0, …, N - 1`, every slot written by
some member holds a candidate and an offset with
`candidate = mean + sigma * offset`. -/
theorem sample_fold_pps {n : ℕ} (env : Env n) (i : ℕ) (L : Mat n) (mean : Vec n) (sigma : ℝ)
    (idx : ℕ → ℕ) (p : Pop n) (N k : ℕ) (hk : ∃ j, j < N ∧ idx j = k) :
    ((List.range N).foldl (sampleOne env i L mean sigma idx) p).pps k
      = mean + sigma • ((List.range N).foldl (sampleOne env i L mean sigma idx) p).pStep k := by
  induction N with
  | zero =>
    obtain ⟨j, hj, _⟩ := hk
    exact absurd hj (Nat.not_lt_zero j)
  | succ N ih =>
    rw [List.range_succ, List.foldl_append]
    simp only [List.foldl_cons, List.foldl_nil, sampleOne]
    by_cases hkN : k = idx N
    · subst hkN
      simp
    · obtain ⟨j, hj, hjk⟩ := hk
      have hjN : j ≠ N := fun he => hkN (by rw [← hjk, he])
      simp only [Function.update_noteq hkN]
      exact ih ⟨j, by omega, hjk⟩

theorem generation_mps {n : ℕ} (env : Env n) (i : ℕ) (L : Mat n) (s : State n) :
    (generation env i L s).mps = s.mps + s.sigma • weightedStep env i L s := rfl

theorem generation_idx {n : ℕ} (env : Env n) (i : ℕ) (L : Mat n) (s : State n) :
    (generation env i L s).idx = genIdx env i L s := rfl

theorem generation_pop {n : ℕ} (env : Env n) (i : ℕ) (L : Mat n) (s : State n) :
    (generation env i L s).pop = genPop env i L s := rfl

/-- One generation entered with a permutation as visitation order and ranked by
a permutation: the new mean is the weighted average of the best candidates. -/
theorem generation_mean_average {n : ℕ} (env : Env n) (i : ℕ) (L : Mat n) (s : State n)
    (hold : IsPerm (lambda n).toNat s.idx)
    (hnew : IsPerm (lambda n).toNat (genIdx env i L s)) :
    (generation env i L s).mps
        = s.mps + s.sigma • ∑ j ∈ Finset.range (mu (lambda n)),
            w (mu (lambda n)) j • (genPop env i L s).pStep (genIdx env i L s j)
      ∧ (generation env i L s).mps
        = ∑ j ∈ Finset.range (mu (lambda n)),
            w (mu (lambda n)) j
              • (generation env i L s).pop.pps ((generation env i L s).idx j) := by
  have hm := one_le_mu_lambda n
  have hml : mu (lambda n) ≤ (lambda n).toNat :=
    mu_le_toNat _ (le_trans (by norm_num) (lambda_ge n))
  have h1 : (generation env i L s).mps
      = s.mps + s.sigma • ∑ j ∈ Finset.range (mu (lambda n)),
          w (mu (lambda n)) j • (genPop env i L s).pStep (genIdx env i L s j) := by
    rw [generation_mps]
    unfold weightedStep
    rw [recombine_eq_sum _ hm]
  refine ⟨h1, ?_⟩
  rw [h1, generation_idx, generation_pop]
  have hpps : ∀ j ∈ Finset.range (mu (lambda n)),
      w (mu (lambda n)) j • (genPop env i L s).pps (genIdx env i L s j)
        = w (mu (lambda n)) j • s.mps
          + s.sigma • (w (mu (lambda n)) j • (genPop env i L s).pStep (genIdx env i L s j)) := by
    intro j hj
    have hlt : genIdx env i L s j < (lambda n).toNat :=
      hnew.1 j (lt_of_lt_of_le (Finset.mem_range.mp hj) hml)
    have := sample_fold_pps env i L s.mps s.sigma s.idx s.pop (lambda n).toNat
      (genIdx env i L s j) (hold.2 _ hlt)
    unfold genPop sample
    rw [this, smul_add, smul_comm]
  rw [Finset.sum_congr rfl hpps, Finset.sum_add_distrib, ← Finset.sum_smul, sum_w _ hm,
    one_smul, ← Finset.smul_sum]

theorem isPerm_id (lam : ℕ) : IsPerm lam (fun j => j) :=
  ⟨fun _ hj => hj, fun k hk => ⟨k, hk, rfl⟩⟩

theorem stateAfter_idx_perm {n : ℕ} (env : Env n)
    (hsort : ∀ pobj, IsPerm (lambda n).toNat (env.sortIndex pobj)) (x0 : Vec n) :
    ∀ (k : ℕ) (s : State n), stateAfter env x0 k = some s → IsPerm (lambda n).toNat s.idx :=
  stateAfter_induction env x0 (fun s => IsPerm (lambda n).toNat s.idx)
    (isPerm_id _) (fun _ _ _ _ _ => hsort _)

/-- C20.  When `sort_index` returns a permutation of `0, …, lambda - 1`: in every
generation the new mean `mean_old + sigma_old * Σ_{j<mu} w_j pStep[idx j]` equals
the weighted average `Σ_{j<mu} w_j pps[idx j]` of the `mu` best-ranked
candidates, a convex combination since the weights are non-negative and sum
to 1. -/
theorem new_mean_is_weighted_average_of_best {n : ℕ} (env : Env n)
    (hsort : ∀ pobj, IsPerm (lambda n).toNat (env.sortIndex pobj))
    (x0 : Vec n) (k : ℕ) (s : State n) (L : Mat n) (hs : stateAfter env x0 k = some s) :
    (generation env (k + 1) L s).mps
        = s.mps + s.sigma • ∑ j ∈ Finset.range (mu (lambda n)),
            w (mu (lambda n)) j
              • (generation env (k + 1) L s).pop.pStep ((generation env (k + 1) L s).idx j)
      ∧ (generation env (k + 1) L s).mps
        = ∑ j ∈ Finset.range (mu (lambda n)),
            w (mu (lambda n)) j
              • (generation env (k + 1) L s).pop.pps ((generation env (k + 1) L s).idx j)
      ∧ (∀ j, j < mu (lambda n) → 0 ≤ w (mu (lambda n)) j)
      ∧ ∑ j ∈ Finset.range (mu (lambda n)), w (mu (lambda n)) j = 1 := by
  obtain ⟨h1, h2⟩ := generation_mean_average env (k + 1) L s
    (stateAfter_idx_perm env hsort x0 k s hs) (hsort _)
  exact ⟨h1, h2, fun j hj => (w_pos _ j hj).le, sum_w _ (one_le_mu_lambda n)⟩

/-- C20 (witness): generation 1 of the run on one variable with the objective
constantly 0. -/
theorem new_mean_is_weighted_average_of_best_witness :
    (generation (constEnv (Dbl.fin 0)) 1 1 (initState (constEnv (Dbl.fin 0)) 0)).mps
      = ∑ j ∈ Finset.range (mu (lambda 1)),
          w (mu (lambda 1)) j
            • (generation (constEnv (Dbl.fin 0)) 1 1
                (initState (constEnv (Dbl.fin 0)) 0)).pop.pps
                ((generation (constEnv (Dbl.fin 0)) 1 1
                  (initState (constEnv (Dbl.fin 0)) 0)).idx j) :=
  (new_mean_is_weighted_average_of_best (constEnv (Dbl.fin 0)) (fun _ => isPerm_id _) 0 0
    (initState (constEnv (Dbl.fin 0)) 0) 1 rfl).2.1

/-! ## The step-size path and the two orientations -/

theorem path_factor_pos (n : ℕ) : 0 < Real.sqrt (cs n * (2 - cs n) * muEff n) := by
  apply Real.sqrt_pos.mpr
  have h1 := cs_pos n
  have h2 := cs_lt_one n
  have h3 := muEff_pos n
  exact mul_pos (mul_pos h1 (by linarith)) h3

theorem inv_two_smul_one : (!![2, 0; 0, 2] : Mat 2)⁻¹ = !![1 / 2, 0; 0, 1 / 2] := by
  apply Matrix.inv_eq_right_inv
  ext a b
  fin_cases a <;> fin_cases b <;> simp [Matrix.mul_apply, Fin.sum_univ_two]

/-- C14 (code at the failing input).  Column orientation on two variables, with
the lower-triangular invertible root `L = diag(2, 2)` of `C_old = diag(4, 4)`,
`p_old = 0` and weighted step `s = (1, 0)`: the code computes
`ps = κ * Lᵀ s = κ * (2, 0)` with `κ = sqrt(cs (2 - cs) muEff) > 0`, while the
update with the inverse root gives `κ * L⁻¹ s = κ * (1/2, 0)`. -/
theorem ps_update_applies_transpose_not_inverse :
    (!![2, 0; 0, 2] : Mat 2) * (!![2, 0; 0, 2] : Mat 2).transpose = !![4, 0; 0, 4]
      ∧ 0 < Real.sqrt (cs 2 * (2 - cs 2) * muEff 2)
      ∧ psUpdate true (!![2, 0; 0, 2] : Mat 2) 0 ![1, 0]
          = Real.sqrt (cs 2 * (2 - cs 2) * muEff 2) • ![2, 0]
      ∧ psUpdateSpec (!![2, 0; 0, 2] : Mat 2) 0 ![1, 0]
          = Real.sqrt (cs 2 * (2 - cs 2) * muEff 2) • ![1 / 2, 0]
      ∧ psUpdate true (!![2, 0; 0, 2] : Mat 2) 0 ![1, 0]
          ≠ psUpdateSpec (!![2, 0; 0, 2] : Mat 2) 0 ![1, 0] := by
  have hk := path_factor_pos 2
  have h1 : psUpdate true (!![2, 0; 0, 2] : Mat 2) 0 ![1, 0]
      = Real.sqrt (cs 2 * (2 - cs 2) * muEff 2) • ![2, 0] := by
    unfold psUpdate
    simp only [if_true, smul_zero, zero_add]
    congr 1
    ext a
    fin_cases a <;> simp [Matrix.mulVec, Matrix.dotProduct, Fin.sum_univ_two]
  have h2 : psUpdateSpec (!![2, 0; 0, 2] : Mat 2) 0 ![1, 0]
      = Real.sqrt (cs 2 * (2 - cs 2) * muEff 2) • ![1 / 2, 0] := by
    unfold psUpdateSpec
    rw [inv_two_smul_one]
    simp only [smul_zero, zero_add]
    congr 1
    ext a
    fin_cases a <;> simp [Matrix.mulVec, Matrix.dotProduct, Fin.sum_univ_two]
  refine ⟨?_, hk, h1, h2, ?_⟩
  · have ht : (!![2, 0; 0, 2] : Mat 2).transpose = !![2, 0; 0, 2] := by
      ext a b
      fin_cases a <;> fin_cases b <;> rfl
    rw [ht]
    ext a b
    fin_cases a <;> fin_cases b <;> norm_num [Matrix.mul_apply, Fin.sum_univ_two]
  · rw [h1, h2]
    intro he
    have := congrFun he 0
    simp only [Pi.smul_apply, Matrix.cons_val_zero, smul_eq_mul] at this
    nlinarith

/-- C15 (code at the failing input).  On two variables, with the lower-triangular
root `L = (1 0; 1 1)` and the noise `z = (1, 0)`: the column branch produces the
offset `L z = (1, 1)`, the row branch `zᵀ L = (1, 0)`, which is not its
transpose; with `p_old = 0` and step `(1, 0)` the column branch of the path
update gives `κ * (1, 0)` and the row branch `κ * (1, 1)`, `κ > 0`. -/
theorem row_and_column_branches_differ :
    offset (orientEnv true) 1 (!![1, 0; 1, 1] : Mat 2) 0 = ![1, 1]
      ∧ offset (orientEnv false) 1 (!![1, 0; 1, 1] : Mat 2) 0 = ![1, 0]
      ∧ offset (orientEnv false) 1 (!![1, 0; 1, 1] : Mat 2) 0
          ≠ offset (orientEnv true) 1 (!![1, 0; 1, 1] : Mat 2) 0
      ∧ psUpdate true (!![1, 0; 1, 1] : Mat 2) 0 ![1, 0]
          = Real.sqrt (cs 2 * (2 - cs 2) * muEff 2) • ![1, 0]
      ∧ psUpdate false (!![1, 0; 1, 1] : Mat 2) 0 ![1, 0]
          = Real.sqrt (cs 2 * (2 - cs 2) * muEff 2) • ![1, 1]
      ∧ psUpdate false (!![1, 0; 1, 1] : Mat 2) 0 ![1, 0]
          ≠ psUpdate true (!![1, 0; 1, 1] : Mat 2) 0 ![1, 0] := by
  have hk := path_factor_pos 2
  have o1 : offset (orientEnv true) 1 (!![1, 0; 1, 1] : Mat 2) 0 = ![1, 1] := by
    ext a
    fin_cases a <;> simp [offset, orientEnv, Matrix.mulVec, Matrix.dotProduct, Fin.sum_univ_two]
  have o2 : offset (orientEnv false) 1 (!![1, 0; 1, 1] : Mat 2) 0 = ![1, 0] := by
    ext a
    fin_cases a <;> simp [offset, orientEnv, Matrix.vecMul, Matrix.dotProduct, Fin.sum_univ_two]
  have p1 : psUpdate true (!![1, 0; 1, 1] : Mat 2) 0 ![1, 0]
      = Real.sqrt (cs 2 * (2 - cs 2) * muEff 2) • ![1, 0] := by
    unfold psUpdate
    simp only [if_true, smul_zero, zero_add]
    congr 1
    ext a
    fin_cases a <;> simp [Matrix.mulVec, Matrix.dotProduct, Fin.sum_univ_two]
  have p2 : psUpdate false (!![1, 0; 1, 1] : Mat 2) 0 ![1, 0]
      = Real.sqrt (cs 2 * (2 - cs 2) * muEff 2) • ![1, 1] := by
    unfold psUpdate
    simp only [Bool.false_eq_true, if_false, smul_zero, zero_add]
    congr 1
    ext a
    fin_cases a <;> simp [Matrix.vecMul, Matrix.dotProduct, Fin.sum_univ_two]
  refine ⟨o1, o2, ?_, p1, p2, ?_⟩
  · rw [o1, o2]
    intro he
    have := congrFun he 1
    simp at this
  · rw [p1, p2]
    intro he
    have := congrFun he 1
    simp only [Pi.smul_apply, Matrix.cons_val_one, Matrix.head_cons, smul_eq_mul] at this
    nlinarith

/-! ## The run as a sequence of generations -/

theorem generationsRun_chol_none {n : ℕ} (env : Env n) (fuel i : ℕ) (s : State n)
    (hc : env.chol s.C = none) : generationsRun env (fuel + 1) i s = 0 := by
  simp only [generationsRun, hc]

theorem generationsRun_running {n : ℕ} (env : Env n) (fuel i : ℕ) (s : State n) (L : Mat n)
    (hc : env.chol s.C = some L)
    (hd : terminate (generation env i L s).lastobj (generation env i L s).overallobj
      (Dbl.fin (generation env i L s).sigma) = Decision.running) :
    generationsRun env (fuel + 1) i s
      = generationsRun env fuel (i + 1) (commit (generation env i L s)) + 1 := by
  simp only [generationsRun, hc, hd]

theorem stateAfter_succ_of {n : ℕ} (env : Env n) (x0 : Vec n) (k : ℕ) (s : State n)
    (L : Mat n) (hs : stateAfter env x0 k = some s) (hc : env.chol s.C = some L) :
    stateAfter env x0 (k + 1) = some (commit (generation env (k + 1) L s)) := by
  simp only [stateAfter, hs, Option.some_bind, genStep, hc]

theorem stateAfter_succ_inv {n : ℕ} (env : Env n) (x0 : Vec n) (k : ℕ) (t : State n)
    (ht : stateAfter env x0 (k + 1) = some t) :
    ∃ (s : State n) (L : Mat n), stateAfter env x0 k = some s ∧ env.chol s.C = some L
      ∧ t = commit (generation env (k + 1) L s) := by
  simp only [stateAfter, Option.bind_eq_some] at ht
  obtain ⟨s, hk, hg⟩ := ht
  unfold genStep at hg
  cases hc : env.chol s.C with
  | none => rw [hc] at hg; simp at hg
  | some L =>
    rw [hc] at hg
    simp only [Option.some.injEq] at hg
    exact ⟨s, L, hk, hc, hg.symm⟩

/-- A run of the loop that ends at the budget has executed every one of its
`fuel` generations, and returns the state reached after them. -/
theorem cmaesLoop_budget_trace {n : ℕ} (env : Env n) (x0 : Vec n) :
    ∀ (fuel k : ℕ) (s : State n), stateAfter env x0 k = some s →
      (cmaesLoop env fuel (k + 1) s).exit = Exit.budget →
      generationsRun env fuel (k + 1) s = fuel
        ∧ (cmaesLoop env fuel (k + 1) s).gen = k + 1 + fuel
        ∧ ∃ t, stateAfter env x0 (k + fuel) = some t
            ∧ (cmaesLoop env fuel (k + 1) s).value = t.overallobj
            ∧ (cmaesLoop env fuel (k + 1) s).iterate = t.iterate := by
  intro fuel
  induction fuel with
  | zero =>
    intro k s hs _
    exact ⟨rfl, rfl, s, hs, rfl, rfl⟩
  | succ fuel ih =>
    intro k s hs hex
    cases hc : env.chol s.C with
    | none =>
      rw [cmaesLoop_chol_none env fuel (k + 1) s hc] at hex
      simp at hex
    | some L =>
      cases hd : terminate (generation env (k + 1) L s).lastobj
          (generation env (k + 1) L s).overallobj
          (Dbl.fin (generation env (k + 1) L s).sigma) with
      | numericalFailure =>
        rw [cmaesLoop_fail env fuel (k + 1) s L hc hd] at hex
        simp at hex
      | converged =>
        rw [cmaesLoop_converged env fuel (k + 1) s L hc hd] at hex
        simp at hex
      | running =>
        rw [cmaesLoop_running env fuel (k + 1) s L hc hd] at hex ⊢
        rw [generationsRun_running env fuel (k + 1) s L hc hd]
        obtain ⟨g1, g2, t, g3, g4, g5⟩ := ih (k + 1)
          (commit (generation env (k + 1) L s)) (stateAfter_succ_of env x0 k s L hs hc) hex
        refine ⟨by rw [g1], by rw [g2]; omega, t, ?_, g4, g5⟩
        rw [← g3]
        congr 1
        omega

/-- A run of the loop that ends by a failed factorisation in generation `g` has
executed the generations before `g` only, and returns the state reached after
generation `g - 1`. -/
theorem cmaesLoop_cholFailed_trace {n : ℕ} (env : Env n) (x0 : Vec n) :
    ∀ (fuel k : ℕ) (s : State n), stateAfter env x0 k = some s →
      (cmaesLoop env fuel (k + 1) s).exit = Exit.cholFailed →
      ∃ t, k + 1 ≤ (cmaesLoop env fuel (k + 1) s).gen
        ∧ stateAfter env x0 ((cmaesLoop env fuel (k + 1) s).gen - 1) = some t
        ∧ env.chol t.C = none
        ∧ (cmaesLoop env fuel (k + 1) s).value = t.overallobj
        ∧ (cmaesLoop env fuel (k + 1) s).iterate = t.iterate
        ∧ generationsRun env fuel (k + 1) s + k + 1 = (cmaesLoop env fuel (k + 1) s).gen := by
  intro fuel
  induction fuel with
  | zero =>
    intro k s _ hex
    rw [cmaesLoop_zero] at hex
    simp at hex
  | succ fuel ih =>
    intro k s hs hex
    cases hc : env.chol s.C with
    | none =>
      rw [cmaesLoop_chol_none env fuel (k + 1) s hc, generationsRun_chol_none env fuel _ s hc]
      refine ⟨s, le_refl _, hs, hc, rfl, rfl, ?_⟩
      show 0 + k + 1 = k + 1
      omega
    | some L =>
      cases hd : terminate (generation env (k + 1) L s).lastobj
          (generation env (k + 1) L s).overallobj
          (Dbl.fin (generation env (k + 1) L s).sigma) with
      | numericalFailure =>
        rw [cmaesLoop_fail env fuel (k + 1) s L hc hd] at hex
        simp at hex
      | converged =>
        rw [cmaesLoop_converged env fuel (k + 1) s L hc hd] at hex
        simp at hex
      | running =>
        rw [cmaesLoop_running env fuel (k + 1) s L hc hd] at hex ⊢
        rw [generationsRun_running env fuel (k + 1) s L hc hd]
        obtain ⟨t, g1, g2, g3, g4, g5, g6⟩ := ih (k + 1)
          (commit (generation env (k + 1) L s)) (stateAfter_succ_of env x0 k s L hs hc) hex
        exact ⟨t, by omega, g2, g3, g4, g5, by omega⟩

theorem cmaesGenerations_unfold {n : ℕ} (env : Env n) (x0 : Vec n) :
    cmaesGenerations env x0 = generationsRun env (498 + 1) 1 (initState env x0) := rfl

theorem constEnv_hundred_run (x0 : Vec 1) :
    cmaes (constEnv (Dbl.fin 100)) x0 = ⟨Exit.budget, Dbl.fin 100, x0, 500⟩ := by
  rw [cmaes_unfold]
  exact cmaesLoop_constEnv_budget 100 (lt_irrefl _) 499 1 _ rfl
    (by rw [initState_C]; norm_num) rfl

theorem budget_run_generations {n : ℕ} (env : Env n) (x0 : Vec n)
    (hex : (cmaes env x0).exit = Exit.budget) :
    cmaesGenerations env x0 = 499 ∧ (cmaes env x0).gen = 500
      ∧ ∃ t, stateAfter env x0 499 = some t ∧ (cmaes env x0).value = t.overallobj
          ∧ (cmaes env x0).iterate = t.iterate := by
  rw [cmaes_unfold] at hex ⊢
  rw [cmaesGenerations_unfold]
  obtain ⟨g1, g2, t, g3, g4, g5⟩ := cmaesLoop_budget_trace env x0 (498 + 1) 0 (initState env x0) rfl hex
  exact ⟨g1, g2, t, by simpa using g3, g4, g5⟩

/-- C11 (counterexample).  The run on one variable with the objective constantly
100 triggers no Cholesky failure, no non-finite return and no convergence: it
ends at the budget, with the counter at 500, after 499 generations, not 500. -/
theorem budget_run_executes_499_generations :
    (cmaes (constEnv (Dbl.fin 100)) (fun _ => 0)).exit = Exit.budget
      ∧ (cmaes (constEnv (Dbl.fin 100)) (fun _ => 0)).gen = 500
      ∧ cmaesGenerations (constEnv (Dbl.fin 100)) (fun _ => 0) = 499
      ∧ cmaesGenerations (constEnv (Dbl.fin 100)) (fun _ => 0) ≠ 500 := by
  have hex : (cmaes (constEnv (Dbl.fin 100)) (fun _ => 0)).exit = Exit.budget := by
    rw [constEnv_hundred_run]
  obtain ⟨g1, g2, _⟩ := budget_run_generations _ _ hex
  refine ⟨hex, g2, g1, ?_⟩
  rw [g1]
  decide

/-- C11 (amended).  With `maxIt = 500`, a run of `cmaes` that ends at the budget
(no generation triggered a Cholesky failure, the non-finite return or the
convergence return) has executed exactly 499 generations, those with loop
counter 1 to 499: the loop ends when the counter reaches 500, and the run
returns the best-ever cost and iterate as they stand after generation 499. -/
theorem budget_run_ends_when_counter_reaches_maxIt {n : ℕ} (env : Env n) (x0 : Vec n)
    (hex : (cmaes env x0).exit = Exit.budget) :
    maxIt = 500 ∧ cmaesGenerations env x0 = 499 ∧ (cmaes env x0).gen = 500
      ∧ ∃ t, stateAfter env x0 499 = some t ∧ (cmaes env x0).value = t.overallobj
          ∧ (cmaes env x0).iterate = t.iterate :=
  ⟨rfl, budget_run_generations env x0 hex⟩

/-- C11 (witness): the run on one variable with the objective constantly 100. -/
theorem budget_run_ends_when_counter_reaches_maxIt_witness :
    (cmaes (constEnv (Dbl.fin 100)) (fun _ => 1)).exit = Exit.budget
      ∧ cmaesGenerations (constEnv (Dbl.fin 100)) (fun _ => 1) = 499
      ∧ (cmaes (constEnv (Dbl.fin 100)) (fun _ => 1)).gen = 500 :=
  ⟨by rw [constEnv_hundred_run],
    (budget_run_ends_when_counter_reaches_maxIt (constEnv (Dbl.fin 100)) (fun _ => 1)
      (by rw [constEnv_hundred_run])).2.1,
    (budget_run_ends_when_counter_reaches_maxIt (constEnv (Dbl.fin 100)) (fun _ => 1)
      (by rw [constEnv_hundred_run])).2.2.1⟩

/-- C12.  A Cholesky failure at the start of generation `g` ends the run at once:
the loop returns the best-ever cost and the iterate of the state with which the
generation was entered, and the body of generation `g` is not executed.  For
`g = 1` the returned cost is the initial cost and `iterate` is the input.  In
general a run of `cmaes` that ends by a Cholesky failure in generation `g`
returns the cost and iterate of the end of generation `g - 1`, after `g - 1`
executed generations. -/
theorem cholesky_failure_returns_previous_best {n : ℕ} (env : Env n) (x0 : Vec n) :
    (∀ (fuel g : ℕ) (s : State n), env.chol s.C = none →
        cmaesLoop env (fuel + 1) g s = ⟨Exit.cholFailed, s.overallobj, s.iterate, g⟩
          ∧ generationsRun env (fuel + 1) g s = 0)
      ∧ (env.chol 1 = none →
          cmaes env x0 = ⟨Exit.cholFailed, env.obj x0, x0, 1⟩ ∧ cmaesGenerations env x0 = 0)
      ∧ ((cmaes env x0).exit = Exit.cholFailed →
          ∃ t, 1 ≤ (cmaes env x0).gen
            ∧ stateAfter env x0 ((cmaes env x0).gen - 1) = some t
            ∧ env.chol t.C = none
            ∧ (cmaes env x0).value = t.overallobj
            ∧ (cmaes env x0).iterate = t.iterate
            ∧ cmaesGenerations env x0 + 1 = (cmaes env x0).gen) := by
  refine ⟨fun fuel g s hc => ⟨cmaesLoop_chol_none env fuel g s hc,
    generationsRun_chol_none env fuel g s hc⟩, fun hc => ?_, fun hex => ?_⟩
  · have hc1 : env.chol (initState env x0).C = none := hc
    rw [cmaes_unfold, cmaesGenerations_unfold, cmaesLoop_chol_none env 498 1 _ hc1,
      generationsRun_chol_none env 498 1 _ hc1]
    exact ⟨rfl, rfl⟩
  · rw [cmaes_unfold] at hex ⊢
    rw [cmaesGenerations_unfold]
    obtain ⟨t, g1, g2, g3, g4, g5, g6⟩ :=
      cmaesLoop_cholFailed_trace env x0 (498 + 1) 0 (initState env x0) rfl hex
    exact ⟨t, g1, g2, g3, g4, g5, by simpa using g6⟩

/-- C12 (witness): on one variable, a generation entered with the singular
covariance `C = 0`, whose exact Cholesky factorisation fails. -/
theorem cholesky_failure_returns_previous_best_witness :
    cmaesLoop (constEnv (Dbl.fin 0)) (0 + 1) 7
        { initState (constEnv (Dbl.fin 0)) (fun _ => 3) with C := 0 }
      = ⟨Exit.cholFailed, Dbl.fin 0, fun _ => 3, 7⟩ :=
  ((cholesky_failure_returns_previous_best (constEnv (Dbl.fin 0)) (fun _ => 3)).1 0 7
    { initState (constEnv (Dbl.fin 0)) (fun _ => 3) with C := 0 }
    (by simp [constEnv])).1

/-! ## Best-ever tracking -/

theorem Dbl.lt_asymm {α : Type} [LinearOrderedField α] (a b : Dbl α) (hab : a.lt b = true) :
    b.lt a = false := by
  cases a <;> cases b <;> simp_all [Dbl.lt]
  exact le_of_lt hab

theorem Dbl.lt_of_lt_of_not_lt {α : Type} [LinearOrderedField α] (c o x : Dbl α)
    (hco : c.lt o = true) (hxo : x.lt o = false) : x.lt c = false := by
  cases c <;> cases o <;> cases x <;> simp_all [Dbl.lt]
  exact le_trans (le_of_lt hco) hxo

theorem Dbl.isNaN_eq_false_iff {α : Type} (a : Dbl α) : a.isNaN = false ↔ a ≠ Dbl.nan := by
  cases a <;> simp [Dbl.isNaN]

theorem generation_best {n : ℕ} (env : Env n) (i : ℕ) (L : Mat n) (s : State n) :
    (generation env i L s).overallobj
        = Dbl.min s.overallobj (env.obj (generation env i L s).mps)
      ∧ (generation env i L s).iterate
        = if (env.obj (generation env i L s).mps).lt s.overallobj = true
          then (generation env i L s).mps else s.iterate :=
  ⟨rfl, rfl⟩

theorem generation_keeps_cost_of_iterate {n : ℕ} (env : Env n) (i : ℕ) (L : Mat n)
    (s : State n) (hs : env.obj s.iterate = s.overallobj) :
    env.obj (generation env i L s).iterate = (generation env i L s).overallobj := by
  obtain ⟨h1, h2⟩ := generation_best env i L s
  rw [h1, h2]
  unfold Dbl.min
  split
  · rfl
  · exact hs

theorem cmaesLoop_cost_of_iterate {n : ℕ} (env : Env n) :
    ∀ (fuel i : ℕ) (s : State n), env.obj s.iterate = s.overallobj →
      env.obj (cmaesLoop env fuel i s).iterate = (cmaesLoop env fuel i s).value := by
  intro fuel
  induction fuel with
  | zero =>
    intro i s hs
    exact hs
  | succ fuel ih =>
    intro i s hs
    cases hc : env.chol s.C with
    | none =>
      rw [cmaesLoop_chol_none env fuel i s hc]
      exact hs
    | some L =>
      have hg := generation_keeps_cost_of_iterate env i L s hs
      cases hd : terminate (generation env i L s).lastobj (generation env i L s).overallobj
          (Dbl.fin (generation env i L s).sigma) with
      | numericalFailure =>
        rw [cmaesLoop_fail env fuel i s L hc hd]
        exact hg
      | converged =>
        rw [cmaesLoop_converged env fuel i s L hc hd]
        exact hg
      | running =>
        rw [cmaesLoop_running env fuel i s L hc hd]
        exact ih (i + 1) _ hg

/-- At the end of generation `k` the best-ever cost is one of the costs of the
initial point and of the recombined means so far, and none of them is smaller. -/
theorem stateAfter_overallobj_min {n : ℕ} (env : Env n) (x0 : Vec n)
    (hobj : ∀ x, env.obj x ≠ Dbl.nan) :
    ∀ (k : ℕ) (s : State n), stateAfter env x0 k = some s →
      (∃ (j : ℕ) (sj : State n), j ≤ k ∧ stateAfter env x0 j = some sj
          ∧ s.overallobj = env.obj sj.mps)
        ∧ (∀ (j : ℕ) (sj : State n), j ≤ k → stateAfter env x0 j = some sj →
            Dbl.le s.overallobj (env.obj sj.mps)) := by
  intro k
  induction k with
  | zero =>
    intro s hs
    have e : s = initState env x0 := by
      simp only [stateAfter, Option.some.injEq] at hs
      exact hs.symm
    refine ⟨⟨0, s, le_refl 0, hs, by rw [e]; rfl⟩, fun j sj hj hsj => ?_⟩
    have hj0 : j = 0 := by omega
    subst hj0
    have e2 : sj = s := by rw [hs] at hsj; exact (Option.some.inj hsj).symm
    subst e2
    have e3 : sj.overallobj = env.obj sj.mps := by rw [e]; rfl
    rw [e3]
    exact ⟨(Dbl.isNaN_eq_false_iff _).mpr (hobj _), (Dbl.isNaN_eq_false_iff _).mpr (hobj _),
      Dbl.lt_irrefl _⟩
  | succ k ih =>
    intro t ht
    obtain ⟨s, L, hs, _, e⟩ := stateAfter_succ_inv env x0 k t ht
    obtain ⟨⟨j0, s0, hj0, hs0, hatt⟩, hlow⟩ := ih s hs
    have hmps : t.mps = (generation env (k + 1) L s).mps := by rw [e]; rfl
    have hov : t.overallobj = Dbl.min s.overallobj (env.obj t.mps) := by
      rw [hmps, e]
      exact (generation_best env (k + 1) L s).1
    have hnan : ∀ x, (env.obj x).isNaN = false := fun x =>
      (Dbl.isNaN_eq_false_iff _).mpr (hobj x)
    cases hb : (env.obj t.mps).lt s.overallobj with
    | true =>
      have hov2 : t.overallobj = env.obj t.mps := by
        rw [hov]; unfold Dbl.min; rw [if_pos hb]
      refine ⟨⟨k + 1, t, le_refl _, ht, hov2⟩, fun j sj hj hsj => ?_⟩
      rw [hov2]
      refine ⟨hnan _, hnan _, ?_⟩
      by_cases hjk : j = k + 1
      · subst hjk
        have e2 : sj = t := by rw [ht] at hsj; exact (Option.some.inj hsj).symm
        rw [e2]
        exact Dbl.lt_irrefl _
      · exact Dbl.lt_of_lt_of_not_lt _ _ _ hb (hlow j sj (by omega) hsj).2.2
    | false =>
      have hov2 : t.overallobj = s.overallobj := by
        rw [hov]; unfold Dbl.min; rw [if_neg (by rw [hb]; simp)]
      refine ⟨⟨j0, s0, by omega, hs0, by rw [hov2]; exact hatt⟩, fun j sj hj hsj => ?_⟩
      rw [hov2]
      by_cases hjk : j = k + 1
      · subst hjk
        have e2 : sj = t := by rw [ht] at hsj; exact (Option.some.inj hsj).symm
        rw [e2]
        refine ⟨?_, hnan _, hb⟩
        rw [hatt]
        exact hnan _
      · exact hlow j sj (by omega) hsj

theorem generation_overallobj_le {n : ℕ} (env : Env n) (hobj : ∀ x, env.obj x ≠ Dbl.nan)
    (i : ℕ) (L : Mat n) (s : State n) (hs : s.overallobj ≠ Dbl.nan) :
    Dbl.le (generation env i L s).overallobj s.overallobj := by
  rw [(generation_best env i L s).1]
  unfold Dbl.min
  split
  · rename_i hb
    exact ⟨(Dbl.isNaN_eq_false_iff _).mpr (hobj _), (Dbl.isNaN_eq_false_iff _).mpr hs,
      Dbl.lt_asymm _ _ hb⟩
  · exact ⟨(Dbl.isNaN_eq_false_iff _).mpr hs, (Dbl.isNaN_eq_false_iff _).mpr hs,
      Dbl.lt_irrefl _⟩

/-- C13.  For an objective without NaN values: one generation sets `overallobj`
to the smaller of its old value and the cost of the new mean, so it does not
increase, and replaces `iterate` by the new mean exactly when that cost is
strictly smaller than the old `overallobj`; at the end of every generation
`overallobj` is the minimum of the costs of the initial point and of the
recombined means of the generations run so far; and on return the cost of
`iterate` is the returned cost (in particular, `iterate` is the unchanged input
or its cost is the returned cost). -/
theorem best_ever_tracking {n : ℕ} (env : Env n) (x0 : Vec n)
    (hobj : ∀ x, env.obj x ≠ Dbl.nan) :
    (∀ (i : ℕ) (L : Mat n) (s : State n),
        (generation env i L s).overallobj
            = Dbl.min s.overallobj (env.obj (generation env i L s).mps)
          ∧ (generation env i L s).iterate
            = (if (env.obj (generation env i L s).mps).lt s.overallobj = true
                then (generation env i L s).mps else s.iterate)
          ∧ (s.overallobj ≠ Dbl.nan → Dbl.le (generation env i L s).overallobj s.overallobj))
      ∧ ((initState env x0).overallobj = env.obj x0 ∧ (initState env x0).mps = x0
          ∧ (initState env x0).iterate = x0)
      ∧ (∀ (k : ℕ) (s : State n), stateAfter env x0 k = some s →
          (∃ (j : ℕ) (sj : State n), j ≤ k ∧ stateAfter env x0 j = some sj
              ∧ s.overallobj = env.obj sj.mps)
            ∧ (∀ (j : ℕ) (sj : State n), j ≤ k → stateAfter env x0 j = some sj →
                Dbl.le s.overallobj (env.obj sj.mps)))
      ∧ env.obj (cmaes env x0).iterate = (cmaes env x0).value
      ∧ ((cmaes env x0).iterate = x0
          ∨ env.obj (cmaes env x0).iterate = (cmaes env x0).value) := by
  have hret : env.obj (cmaes env x0).iterate = (cmaes env x0).value :=
    cmaesLoop_cost_of_iterate env _ _ _ rfl
  exact ⟨fun i L s => ⟨(generation_best env i L s).1, (generation_best env i L s).2,
      generation_overallobj_le env hobj i L s⟩,
    ⟨rfl, rfl, rfl⟩, stateAfter_overallobj_min env x0 hobj, hret, Or.inr hret⟩

/-- C13 (witness): the run on one variable with the objective constantly 0. -/
theorem best_ever_tracking_witness :
    (∀ x, (constEnv (Dbl.fin 0)).obj x ≠ Dbl.nan)
      ∧ (constEnv (Dbl.fin 0)).obj (cmaes (constEnv (Dbl.fin 0)) (fun _ => 2)).iterate
          = (cmaes (constEnv (Dbl.fin 0)) (fun _ => 2)).value :=
  ⟨fun _ h => Dbl.noConfusion h,
    (best_ever_tracking (constEnv (Dbl.fin 0)) (fun _ => 2)
      (fun _ h => Dbl.noConfusion h)).2.2.2.1⟩

end PF2DD2D
